import Mathlib

/-!
# Verification of the DaCe SDFG nesting transformations and source mapping

Shallow embedding of `dace/transformation/interstate/sdfg_nesting.py` and
`dace/sourcemap.py`.  Graph nodes are identified by stable integer handles
(the spec's "arena-indexed" identity, §9); edges carry integer ids playing the
role of Python object identity.  The subset/range algebra
(`dace/subsets.py`) is not part of the sources, so it is modelled from the
spec (§4.1); each such definition is marked `Modelled from the spec:`.
-/

deriving instance DecidableEq for Except

namespace DaceSourcemap

/-! ## Embedding of `dace/sourcemap.py`

Lines of code and identifiers are modelled as `List Char`; the filesystem
reads of `get_tmp` are modelled as an environment function
`String → Option TmpInfo` (the spec's per-graph record, §6). -/

/-- Association-list lookup (Python `dict` access). -/
def alGet {α β : Type} [DecidableEq α] (k : α) : List (α × β) → Option β
  | [] => none
  | (k', v) :: t => if k' = k then some v else alGet k t

/-- Association-list update (Python `dict` assignment: replaces the value in
place if the key exists, otherwise appends, preserving insertion order). -/
def alSet {α β : Type} [DecidableEq α] (k : α) (v : β) : List (α × β) → List (α × β)
  | [] => [(k, v)]
  | (k', v') :: t => if k' = k then (k, v) :: t else (k', v') :: alSet k v t

/-- `SdfgLocation`: parsed `<sdfg>:<state>:<nodes>` identifier fields, kept as
strings exactly as `MapCpp.get_nodes` produces them. -/
structure SdfgLocation where
  sdfg_id : List Char
  state_id : List Char
  node_ids : List (List Char)
deriving DecidableEq, Repr

/-- The literal `////__DACE:` marker of the generated-code identifiers. -/
def daceTag : List Char := "////__DACE:".toList

/-- Consumes a literal from the head of the input, or fails. -/
def dropLit : List Char → List Char → Option (List Char)
  | [], cs => some cs
  | _ :: _, [] => none
  | p :: ps, c :: cs => if c = p then dropLit ps cs else none

/-- Greedy `[0-9]*`: the longest digit run plus the remainder. -/
def matchDigits : List Char → (List Char × List Char)
  | [] => ([], [])
  | c :: cs =>
    if c.isDigit then
      let (d, r) := matchDigits cs
      (c :: d, r)
    else
      ([], c :: cs)

/-- Greedy `(,[0-9])*`: the longest run of comma–digit pairs plus the
remainder. -/
def matchPairs : List Char → (List Char × List Char)
  | ',' :: c :: cs =>
    if c.isDigit then
      let (p, r) := matchPairs cs
      (',' :: c :: p, r)
    else
      ([], ',' :: c :: cs)
  | cs => ([], cs)

/-- One attempted match, at the current position, of the identifier regex of
`MapCpp.get_identifiers`:
`(\/\/\/\/__DACE:[0-9]:[0-9]:[0-9]*(,[0-9])*)` — the marker, a single-digit
SDFG id, a single-digit state id, then a digit run and comma–digit pairs.
Returns the matched identifier (the regex's first group) and the remainder. -/
def matchIdent (cs : List Char) : Option (List Char × List Char) :=
  match dropLit daceTag cs with
  | none => none
  | some r1 =>
    match r1 with
    | d1 :: ':' :: d2 :: ':' :: rest =>
      if d1.isDigit ∧ d2.isDigit then
        let (ds, r2) := matchDigits rest
        let (ps, r3) := matchPairs r2
        some (daceTag ++ d1 :: ':' :: d2 :: ':' :: (ds ++ ps), r3)
      else
        none
    | _ => none

/-- Non-overlapping left-to-right scan (`re.findall` semantics): try a match at
every position, resuming after each successful match.  Fueled by the line
length. -/
def findIdentsAux : Nat → List Char → List (List Char)
  | 0, _ => []
  | _ + 1, [] => []
  | n + 1, c :: cs =>
    match matchIdent (c :: cs) with
    | some (idf, rest) => idf :: findIdentsAux n rest
    | none => findIdentsAux n cs

/-- `MapCpp.get_identifiers`: all identifiers found in a line of generated
code. -/
def MapCpp.get_identifiers (line : List Char) : List (List Char) :=
  findIdentsAux line.length line

/-- `MapCpp.get_nodes`: splits each identifier on `:` into
`(sdfg_id, state_id, node_ids)`; the node field is further split on `,`
(a node "might be an edge").  Identifiers produced by `get_identifiers`
always have four `:`-separated parts. -/
def MapCpp.get_nodes (line : List Char) : List SdfgLocation :=
  (MapCpp.get_identifiers line).map (fun idf =>
    let parts := idf.splitOn ':'
    { sdfg_id := (parts[1]?).getD []
      state_id := (parts[2]?).getD []
      node_ids := ((parts[3]?).getD []).splitOn ',' })

/-- A contiguous range of generated C++ lines attributed to one node
(the `{'from': .., 'to': ..}` record). -/
structure LineRange where
  fromLine : Nat
  toLine : Nat
deriving DecidableEq, Repr

/-- The innermost C++ mapping dictionary: node id → line range. -/
abbrev StateMapT := List (List Char × LineRange)

/-- The per-SDFG C++ mapping dictionary: state id → node ranges. -/
abbrev SdfgMapT := List (List Char × StateMapT)

/-- The outer C++ mapping dictionary: sdfg id → state dictionaries. -/
abbrev EntriesT := List (List Char × SdfgMapT)

instance instDecEqStateMapT : DecidableEq StateMapT := inferInstance

instance instDecEqSdfgMapT : DecidableEq SdfgMapT := inferInstance

instance instDecEqEntriesT : DecidableEq EntriesT := inferInstance

/-- The C++ mapping: `target` plus nested dictionaries
sdfg id → state id → node id → line range, keyed by the identifier strings. -/
structure CppMap where
  target : String
  entries : EntriesT
deriving DecidableEq, Repr

/-- `MapCpp.create_mapping`: adds one C++ line number for a node location:
creates the nested dictionaries on demand; a fresh node gets
`{from := line, to := line}`, and a node already mapped to the immediately
preceding line has its range extended by one. -/
def MapCpp.create_mapping (node : SdfgLocation) (line_num : Nat) (m : CppMap) : CppMap :=
  let sdfgMap := (alGet node.sdfg_id m.entries).getD []
  let stateMap := (alGet node.state_id sdfgMap).getD []
  let stateMap :=
    node.node_ids.foldl (fun st node_id =>
      match alGet node_id st with
      | none => alSet node_id { fromLine := line_num, toLine := line_num } st
      | some r =>
        if r.toLine + 1 = line_num then
          alSet node_id { r with toLine := r.toLine + 1 } st
        else
          st) stateMap
  { m with entries := alSet node.sdfg_id (alSet node.state_id stateMap sdfgMap) m.entries }

/-- `MapCpp.mapper`: maps every line of the generated code (1-based) to the
nodes named by its identifiers. -/
def MapCpp.mapper (code : List (List Char)) (target_name : String) : CppMap :=
  (code.enum.foldl (fun m (p : Nat × List Char) =>
      (MapCpp.get_nodes p.2).foldl (fun m node => MapCpp.create_mapping node (p.1 + 1) m) m)
    { target := target_name, entries := [] })

/-! ### `MapPython` and the mapping passes -/

/-- Debug provenance attached to a node (`node.debuginfo.to_json()`). -/
structure DebugInfo where
  filename : String
  start_line : Nat
  start_column : Nat
  end_line : Nat
  end_column : Nat
deriving DecidableEq, Repr

/-- The record built by `MapPython.make_info`: a debug-info JSON object plus
the node identifiers. -/
structure DbgRec where
  debuginfo : DebugInfo
  sdfg_id : Nat
  state_id : Nat
  node_id : Nat
deriving DecidableEq, Repr

/-- A graph node as seen by the mapping passes: only its optional debug info
matters (access nodes, tasklets, library nodes and maps all expose it the same
way). -/
structure SMNode where
  dbg : Option DebugInfo
deriving DecidableEq, Repr

/-- A state as seen by the mapping passes. -/
structure SMState where
  nodes : List SMNode
deriving DecidableEq, Repr

/-- An SDFG as seen by the mapping passes: a list of states.  The recursion of
`sdfg_debuginfo` into `NestedSDFG` children only changes which records are
collected and is not exercised by any claim; it is elided here. -/
structure SMSdfg where
  states : List SMState
deriving DecidableEq, Repr

/-- `MapPython.make_info`. -/
def MapPython.make_info (d : DebugInfo) (node_id state_id sdfg_id : Nat) : DbgRec :=
  { debuginfo := d, sdfg_id := sdfg_id, state_id := state_id, node_id := node_id }

/-- `MapPython.sdfg_debuginfo` on a top-level SDFG: states get their graph
index as state id, nodes are enumerated within each state, and every node
carrying debug info contributes one record. -/
def MapPython.sdfg_debuginfo (g : SMSdfg) (sdfg_id : Nat) : List DbgRec :=
  (g.states.enum.map (fun p =>
    p.2.nodes.enum.filterMap (fun q =>
      q.2.dbg.map (fun d => MapPython.make_info d q.1 p.1 sdfg_id)))).flatten

/-- One step of `MapPython.divide`: appends a record to the first group whose
first element shares its source filename, or opens a new group at the end. -/
def addToGroup (r : DbgRec) : List (List DbgRec) → List (List DbgRec)
  | [] => [[r]]
  | g :: gs =>
    if g.head?.map (fun x => x.debuginfo.filename) = some r.debuginfo.filename then
      (g ++ [r]) :: gs
    else
      g :: addToGroup r gs

/-- `MapPython.divide`: partitions the debug-info records by source file,
preserving order. -/
def MapPython.divide (l : List DbgRec) : List (List DbgRec) :=
  l.foldl (fun acc r => addToGroup r acc) []

/-- An entry of the python-line mapping: one node identifier triple. -/
structure NodeRef where
  sdfg_id : Nat
  state_id : Nat
  node_id : Nat
deriving DecidableEq, Repr

/-- Per-file python mapping: line number → nodes.  The source keys lines by
`str(line)`; `str` is injective on naturals, so lines are kept as `Nat`. -/
abbrev LineRefs := List (Nat × List NodeRef)

/-- The python-line mapping: source file → per-line node lists. -/
abbrev PyMap := List (String × LineRefs)

instance instDecEqLineRefs : DecidableEq LineRefs := inferInstance

instance instDecEqPyMap : DecidableEq PyMap := inferInstance

/-- Python's `range(a, b + 1)`. -/
def lineRange (a b : Nat) : List Nat := List.range' a (b + 1 - a)

/-- The body of the first loop of `MapPython.create_mapping` for one record:
ensures the file key exists, then appends the record's identifiers to every
line from `start_line` to `end_line`. -/
def addRecord (m : PyMap) (r : DbgRec) : PyMap :=
  let src := r.debuginfo.filename
  let fileMap := (alGet src m).getD []
  let fileMap := (lineRange r.debuginfo.start_line r.debuginfo.end_line).foldl
    (fun fm line =>
      let refs := (alGet line fm).getD []
      alSet line (refs ++ [⟨r.sdfg_id, r.state_id, r.node_id⟩]) fm) fileMap
  alSet src fileMap m

/-- The second phase of `MapPython.create_mapping` (only reached with a
`range_dict`): maps source lines that carry no debug info to the nodes of the
previous mapped line, or, failing that, of the last mapped line following them
in the range (the source's inner search loop has no `break`, so the last
match wins). -/
def fillRanges (m : PyMap) (range_dict : List (String × List (Nat × Nat))) : PyMap :=
  range_dict.foldl (fun m p =>
    let src_map := (alGet p.1 m).getD []
    let src_map := p.2.foldl (fun sm se =>
      (lineRange se.1 se.2).foldl (fun sm line =>
        if (alGet line sm).isSome then
          sm
        else
          match alGet (line - 1) sm with
          | some refs => alSet line refs sm
          | none =>
            match ((List.range' (line + 1) (se.2 + 1 - (line + 1))).filter
                (fun l2 => (alGet l2 sm).isSome)).getLast? with
            | some l2 => alSet line ((alGet l2 sm).getD []) sm
            | none => sm) sm) src_map
    alSet p.1 src_map m) m

/-- `MapPython.create_mapping`: builds the python-line mapping from the
(divided) debug-info groups, then, when provenance ranges are given, fills the
uncovered lines of each range. -/
def MapPython.create_mapping (dbginfo : List (List DbgRec))
    (range_dict : Option (List (String × List (Nat × Nat)))) : PyMap :=
  let m := dbginfo.foldl (fun m g => g.foldl addRecord m) []
  match range_dict with
  | none => m
  | some rd => fillRanges m rd

/-- The spec's per-graph temporary record (§6):
`{start_line, end_line, src_file, other_sdfgs: [names]}` plus the build-folder
and API flags the source stores alongside.  All fields are optional, matching
the key-presence guards of the source. -/
structure TmpInfo where
  start_line : Option Nat := none
  end_line : Option Nat := none
  src_file : Option String := none
  other_sdfgs : Option (List String) := none
  build_folder : Option String := none
  made_with_api : Option Bool := none
deriving DecidableEq, Repr

/-- `MapPython.mapper`.  `line_info` is the record loaded by `get_tmp` for
this SDFG and `env` models `get_tmp` for other SDFG names (a read of the
build folder, spec §6).  The source also calls `self.sorter()` here but
discards its result, so `self.debuginfo` stays the divided, unsorted list and
the call has no effect; `remove_tmp` only touches the filesystem and is
likewise outside the model. -/
def MapPython.mapper (g : SMSdfg) (line_info : Option TmpInfo)
    (env : String → Option TmpInfo) : PyMap :=
  let dbg := MapPython.divide (MapPython.sdfg_debuginfo g 0)
  match line_info with
  | none => MapPython.create_mapping dbg none
  | some li =>
    match li.start_line, li.end_line, li.src_file with
    | some sl, some el, some sf =>
      let range_dict := [(sf, [(sl, el)])]
      let range_dict := (li.other_sdfgs.getD []).foldl (fun rd name =>
        match env name with
        | some t =>
          match t.src_file, t.start_line, t.end_line with
          | some sf2, some sl2, some el2 =>
            let ranges := (alGet sf2 rd).getD []
            alSet sf2 (ranges ++ [(sl2, el2)]) rd
          | _, _, _ => rd
        | none => rd) range_dict
      MapPython.create_mapping dbg (some range_dict)
    | _, _, _ => MapPython.create_mapping dbg none

/-- `create_cpp_map`: loads the temporary record for the SDFG and returns
without creating anything when it is absent; otherwise, unless the cache
configuration is `hash`, builds the C++ mapping from the generated code.
Saving the mapping and messaging the IDE are filesystem/socket effects outside
the model; the returned value is the mapping created, `none` when none is. -/
def create_cpp_map (code : List (List Char)) (name : String) (target_name : String)
    (env : String → Option TmpInfo) (cacheCfg : String) : Option CppMap :=
  match env name with
  | none => none
  | some _ =>
    if cacheCfg ≠ "hash" then
      some (MapCpp.mapper code target_name)
    else
      none

/-- A concrete debug-info record used to witness C9. -/
def c9info : DebugInfo :=
  { filename := "prog.py", start_line := 3, start_column := 0, end_line := 4, end_column := 0 }

/-- A one-state, one-node SDFG carrying `c9info`. -/
def c9g : SMSdfg := { states := [{ nodes := [{ dbg := some c9info }] }] }

/-- The record `sdfg_debuginfo` collects from `c9g`. -/
def c9rec : DbgRec := { debuginfo := c9info, sdfg_id := 0, state_id := 0, node_id := 0 }

end DaceSourcemap

namespace DaceNesting

open DaceSourcemap (alGet alSet)

/-- One dimension of a subset: an inclusive symbolic range `(begin, end, step)`
with concrete integer bounds.  Mirrors the `(start, end, step)` triples of the
spec's Subset data model (§3). -/
abbrev Rng := Int × Int × Int

/-- A subset: ordered `(start, end, step)` triples, one per dimension (§3). -/
abbrev Subset := List Rng

/-- Modelled from the spec: `size()` — "ordered extents" of a subset (§4.1),
with the usual closed-interval extent `(end - begin + step) / step`
(for unit step, `end - begin + 1`). -/
def subsetSize (s : Subset) : List Int :=
  s.map (fun r => (r.2.1 - r.1 + r.2.2) / r.2.2)

/-- Modelled from the spec: `offset(by)` — "shifts each dimension's start/end
by the matching entry of `by`; requires equal rank" (§4.1).  The matching
entry of a range argument is its start.  Returns `none` on rank mismatch. -/
def subsetOffset (s other : Subset) : Option Subset :=
  if s.length = other.length then
    some (List.zipWith (fun r o => (r.1 + o.1, r.2.1 + o.1, r.2.2)) s other)
  else
    none

/-- Inserts a range at a position of a subset; `none` if the position exceeds
the length (spec §4.1: unsqueeze "fails if a position exceeds the resulting
rank"). -/
def insertAt : Subset → Nat → Rng → Option Subset
  | l, 0, r => some (r :: l)
  | [], _ + 1, _ => none
  | x :: xs, n + 1, r => (insertAt xs n r).map (x :: ·)

/-- Modelled from the spec: `unsqueeze(positions)` — "inserts unit-extent
dimensions at sorted positions, increasing rank; fails if a position exceeds
the resulting rank" (§4.1).  Positions are inserted left to right; every call
site below produces them in ascending order. -/
def subsetUnsqueeze (s : Subset) (axes : List Nat) : Option Subset :=
  axes.foldlM (fun acc a => insertAt acc a ((0 : Int), (0 : Int), (1 : Int))) s

/-- A memlet: data name, inside-view subset, optional outside-view subset
(`other_subset`).  Volume/wcr/dynamic are not touched by any claim and are
omitted. -/
structure Memlet where
  data : String
  subset : Subset
  other_subset : Option Subset := none
deriving DecidableEq, Repr

/-- The indices of the unit-extent dimensions of a shape
(`ones = [i for i, d in enumerate(shape) if d == 1]` in
`InlineSDFG._modify_memlet`). -/
def onesOf (shape : List Int) : List Nat :=
  (shape.enum.filter (fun p => p.2 = 1)).map (·.1)

/-- The unsqueeze positions chosen by `InlineSDFG._modify_memlet`: all unit
dimensions of the external shape, except that an internal memlet that is a
single size-1 range `(0, 0, 1)` skips the first one (`to_unsqueeze = ones[1:]`,
the "special case" of the source). -/
def unsqueezePositions (internal : Subset) (shape : List Int) : List Nat :=
  let o := onesOf shape
  if internal.length = 1 ∧ internal[0]? = some ((0 : Int), (0 : Int), (1 : Int)) then
    o.drop 1
  else
    o

/-- `InlineSDFG._modify_memlet`: unsqueezes and offsets an internal memlet
against the external memlet of the matching boundary edge.  Raises
(`Except.error`) on an internal rank exceeding the external one
(`ValueError` in the source) and on an external memlet carrying a secondary
subset (`NotImplementedError` in the source); the order of those checks
follows the source (the secondary-subset check comes after the offset). -/
def modify_memlet (internal external : Memlet) : Except String Memlet := do
  let shape := subsetSize external.subset
  let s1 ←
    if internal.subset.length < external.subset.length then
      match subsetUnsqueeze internal.subset (unsqueezePositions internal.subset shape) with
      | some s => pure s
      | none => throw "unsqueeze: position exceeds resulting rank"
    else if internal.subset.length > external.subset.length then
      throw "ValueError: unexpected extra dimensions in internal memlet while inlining SDFG"
    else
      pure internal.subset
  let s2 ←
    match subsetOffset s1 external.subset with
    | some s => pure s
    | none => throw "offset: rank mismatch"
  if external.other_subset.isSome then
    throw "NotImplementedError"
  return { internal with data := external.data, subset := s2 }

/-- The concrete internal memlet of spec Scenario B: rank 1, `[0:1]`. -/
def scenarioB_internal : Memlet := { data := "x", subset := [((0 : Int), 0, 1)] }

/-- The concrete external memlet of spec Scenario B: rank 2, `[0:10, 0:1]`. -/
def scenarioB_external : Memlet := { data := "A", subset := [((0 : Int), 9, 1), ((0 : Int), 0, 1)] }

/-! ## The dataflow graph model

Nodes are identified by stable natural-number handles within their owning
state (the spec's arena-indexed identity, §9); edges carry an `eid` handle
playing the role of Python object identity.  Nesting is stratified: `Node0`
is a flat dataflow node, `Node1` additionally allows a `NestedSDFG` node
owning a flat child SDFG — exactly the depth the transformations of
`sdfg_nesting.py` manipulate. -/

/-- An array descriptor: shape and transient flag (element type, strides and
storage kind are never consulted by the transformations). -/
structure ArrayDesc where
  shape : List Int
  transient : Bool
deriving DecidableEq, Repr

/-- An edge: `(src node, src connector | none, dst node, dst connector | none,
memlet)` plus its identity handle `eid`. -/
structure Edge where
  eid : Nat
  src : Nat
  srcConn : Option String
  dst : Nat
  dstConn : Option String
  data : Memlet
deriving DecidableEq, Repr

/-- A flat dataflow node: access node, tasklet, or a map-scope boundary
(`mid` names the shared map descriptor pairing an entry with its exit).
`LibraryCall` nodes are never special-cased by the transformations and are
subsumed by `tasklet`. -/
inductive Node0 where
  | access (data : String)
  | tasklet (tid : Nat)
  | mapEntry (mid : Nat)
  | mapExit (mid : Nat)
deriving DecidableEq, Repr

/-- A flat state: a multigraph of `Node0` nodes. -/
structure State0 where
  nodes : List (Nat × Node0)
  edges : List Edge
deriving DecidableEq, Repr

/-- A flat SDFG: label, array table and states. -/
structure SDFG0 where
  label : String
  arrays : List (String × ArrayDesc)
  states : List State0
deriving DecidableEq, Repr

/-- A node that may also be a `NestedSDFG` owning a flat child SDFG with its
boundary connector names. -/
inductive Node1 where
  | base (n : Node0)
  | nested (child : SDFG0) (ins : List String) (outs : List String)
deriving DecidableEq, Repr

/-- A state whose nodes may include `NestedSDFG` nodes. -/
structure State1 where
  nodes : List (Nat × Node1)
  edges : List Edge
deriving DecidableEq, Repr

/-- All edges into a node. -/
def inEdges (es : List Edge) (n : Nat) : List Edge := es.filter (fun e => e.dst = n)

/-- All edges out of a node. -/
def outEdges (es : List Edge) (n : Nat) : List Edge := es.filter (fun e => e.src = n)

/-- What memlet propagation needs to know about a node: whether it is a
map-scope boundary. -/
inductive ScopeK where
  | entry (mid : Nat)
  | exit0 (mid : Nat)
  | notScope
deriving DecidableEq, Repr

/-- Scope kind of a flat node. -/
def Node0.scopeK : Node0 → ScopeK
  | .mapEntry mid => .entry mid
  | .mapExit mid => .exit0 mid
  | _ => .notScope

/-- Scope kind of a level-1 node (a `NestedSDFG` node is not a scope
boundary). -/
def Node1.scopeK : Node1 → ScopeK
  | .base nd => nd.scopeK
  | .nested .. => .notScope

/-- Scope-kind lookup in a flat state. -/
def State0.kindOf (st : State0) (n : Nat) : ScopeK :=
  match alGet n st.nodes with
  | some nd => nd.scopeK
  | none => .notScope

/-- Scope-kind lookup in a level-1 state. -/
def State1.kindOf (st : State1) (n : Nat) : ScopeK :=
  match alGet n st.nodes with
  | some nd => nd.scopeK
  | none => .notScope

/-- Modelled from the spec: backward half of `memlet_path` (§3, §4.2) — the
path is extended backwards through a map-scope boundary whose source
connector `OUT_k` has a matching incoming `IN_k` edge.  Fueled by the edge
count. -/
def pathBack (es : List Edge) (kind : Nat → ScopeK) : Nat → Edge → List Edge
  | 0, e => [e]
  | fuel + 1, e =>
    match kind e.src with
    | .notScope => [e]
    | _ =>
      match e.srcConn with
      | none => [e]
      | some sc =>
        if sc.take 4 = "OUT_" then
          match (inEdges es e.src).find? (fun e2 => e2.dstConn = some ("IN_" ++ sc.drop 4)) with
          | some e2 => pathBack es kind fuel e2 ++ [e]
          | none => [e]
        else
          [e]

/-- Modelled from the spec: forward half of `memlet_path` — extended forwards
through a map-scope boundary whose destination connector `IN_k` has a
matching outgoing `OUT_k` edge (the first one, no branching except at
scopes). -/
def pathFwd (es : List Edge) (kind : Nat → ScopeK) : Nat → Edge → List Edge
  | 0, e => [e]
  | fuel + 1, e =>
    match kind e.dst with
    | .notScope => [e]
    | _ =>
      match e.dstConn with
      | none => [e]
      | some dc =>
        if dc.take 3 = "IN_" then
          match (outEdges es e.dst).find? (fun e2 => e2.srcConn = some ("OUT_" ++ dc.drop 3)) with
          | some e2 => e :: pathFwd es kind fuel e2
          | none => [e]
        else
          [e]

/-- Modelled from the spec: `memlet_path(edge)` — the ordered edges from an
access node or boundary to the innermost node through scope boundaries (§3).
Always contains the given edge. -/
def memlet_path (es : List Edge) (kind : Nat → ScopeK) (e : Edge) : List Edge :=
  pathBack es kind es.length e ++ (pathFwd es kind es.length e).drop 1

/-- Modelled from the spec: the subtree of edges reachable forwards from an
edge through scope boundaries (fan-out), in preorder. -/
def treeFrom (es : List Edge) (kind : Nat → ScopeK) : Nat → Edge → List Edge
  | 0, e => [e]
  | fuel + 1, e =>
    let children : List Edge :=
      match kind e.dst, e.dstConn with
      | .notScope, _ => []
      | _, none => []
      | _, some dc =>
        if dc.take 3 = "IN_" then
          (outEdges es e.dst).filter (fun e2 => e2.srcConn = some ("OUT_" ++ dc.drop 3))
        else
          []
    e :: (children.map (treeFrom es kind fuel)).flatten

/-- Modelled from the spec: `memlet_tree(edge)` — the set of paths sharing the
propagation root of the edge (§3), listed in preorder from the root. -/
def memlet_tree (es : List Edge) (kind : Nat → ScopeK) (e : Edge) : List Edge :=
  match pathBack es kind es.length e with
  | [] => treeFrom es kind es.length e
  | root :: _ => treeFrom es kind es.length root

/-! ## `InlineSDFG.can_be_applied` and `NestSDFG.can_be_applied`

The feasibility checks are translated statement by statement, threading the
graph value through each loop iteration so that the absence of writes is a
provable property of the embedding rather than an assumption. -/

/-- The connector loop of `InlineSDFG.can_be_applied`: walks the boundary
edges keeping the set of connectors seen so far, returning `false` as soon as
a connector repeats.  The graph is threaded through and returned. -/
def InlineSDFG.can_be_applied_loop (graph : State1) (edges : List Edge)
    (proj : Edge → Option String) (seen : List (Option String)) : Bool × State1 :=
  match edges with
  | [] => (true, graph)
  | e :: rest =>
    if seen.contains (proj e) then
      (false, graph)
    else
      InlineSDFG.can_be_applied_loop graph rest proj (proj e :: seen)

/-- `InlineSDFG.can_be_applied`, with the graph threaded: requires the child
SDFG of the candidate `NestedSDFG` node to have exactly one state, and every
incoming (resp. outgoing) boundary edge of the node to use a distinct
destination (resp. source) connector.  The pattern match guarantees the
candidate node is a `NestedSDFG`; any other node is rejected. -/
def InlineSDFG.can_be_applied_run (graph : State1) (candidate : Nat) : Bool × State1 :=
  match alGet candidate graph.nodes with
  | some (.nested child _ _) =>
    if child.states.length ≠ 1 then
      (false, graph)
    else
      match InlineSDFG.can_be_applied_loop graph (inEdges graph.edges candidate)
          (·.dstConn) [] with
      | (false, g) => (false, g)
      | (true, g) =>
        InlineSDFG.can_be_applied_loop g (outEdges g.edges candidate) (·.srcConn) []
  | _ => (false, graph)

/-- `InlineSDFG.can_be_applied` (the returned boolean). -/
def InlineSDFG.can_be_applied (graph : State1) (candidate : Nat) : Bool :=
  (InlineSDFG.can_be_applied_run graph candidate).1

/-- `NestSDFG.can_be_applied`: matches anything (`return True`), with the
SDFG threaded. -/
def NestSDFG.can_be_applied_run (sdfg : SDFG0) : Bool × SDFG0 := (true, sdfg)

/-- The feasibility predicate as worded by claim C3 (for comparison with the
source's check): the child SDFG has exactly one state and every *declared*
boundary connector of the node binds to exactly one incoming/outgoing edge. -/
def claimedFeasible (g : State1) (c : Nat) : Bool :=
  match alGet c g.nodes with
  | some (.nested child ins outs) =>
    (child.states.length == 1) &&
      ins.all (fun s =>
        ((inEdges g.edges c).filter (fun e => e.dstConn = some s)).length == 1) &&
      outs.all (fun s =>
        ((outEdges g.edges c).filter (fun e => e.srcConn = some s)).length == 1)
  | _ => false

/-- A child SDFG with a single empty state. -/
def c3child : SDFG0 := { label := "n", arrays := [], states := [{ nodes := [], edges := [] }] }

/-- C3's counterexample graph: a lone `NestedSDFG` node that declares an input
connector `in` bound to no edge at all. -/
def c3graph : State1 :=
  { nodes := [(0, .nested c3child ["in"] [])], edges := [] }

/-! ## `NestSDFG.apply` (Outline) -/

/-- An SDFG whose states may contain `NestedSDFG` nodes: the result type of
Outline. -/
structure SDFG1 where
  label : String
  arrays : List (String × ArrayDesc)
  states : List State1
deriving DecidableEq, Repr

/-- Association-list key removal (Python `dict.pop`, the key's entry only). -/
def alRemove {α β : Type} [DecidableEq α] (k : α) : List (α × β) → List (α × β)
  | [] => []
  | (k', v) :: t => if k' = k then t else (k', v) :: alRemove k t

/-- Modelled from the spec: `Memlet.from_array` — a whole-array memlet, one
full `[0 : extent]` range per dimension of the descriptor (§4.5 "a whole-array
memlet"). -/
def Memlet.from_array (name : String) (desc : ArrayDesc) : Memlet :=
  { data := name, subset := desc.shape.map (fun n => ((0 : Int), n - 1, 1)), other_subset := none }

/-- The accumulator of `NestSDFG.apply`'s classification loop: the
`inputs`/`outputs`/`transients` rename dictionaries, the evolving nested and
outer array tables, and the loop-carried Python local `node_data_name`, which
is *not* reset between iterations — an access node entering the classification
branch with zero degree receives the name left over from the previous
classified node, or raises `UnboundLocalError` when there is none. -/
structure NestAcc where
  inputs : List (String × String)
  outputs : List (String × String)
  transients : List (String × String)
  nested_arrays : List (String × ArrayDesc)
  outer_arrays : List (String × ArrayDesc)
  node_data_name : Option String
deriving DecidableEq, Repr

/-- The guarded body of the input branch of the classification loop
(lines 548–553): the array is duplicated into the parent table and its child
copy gains the `_in` suffix. -/
def NestSDFG.inputStep (arrname : String) (desc : ArrayDesc) (acc : NestAcc) : NestAcc :=
  match alGet arrname acc.inputs with
  | none =>
    { acc with
      nested_arrays := alSet (arrname ++ "_in") desc acc.nested_arrays,
      outer_arrays := alSet arrname desc acc.outer_arrays,
      inputs := alSet arrname (arrname ++ "_in") acc.inputs }
  | some _ => acc

/-- The guarded body of the output branch (lines 555–563): the parent array is
added only when the name was not already classified as an input. -/
def NestSDFG.outputStep (arrname : String) (desc : ArrayDesc) (acc : NestAcc) : NestAcc :=
  match alGet arrname acc.outputs with
  | none =>
    { acc with
      nested_arrays := alSet (arrname ++ "_out") desc acc.nested_arrays,
      outer_arrays :=
        match alGet arrname acc.inputs with
        | none => alSet arrname desc acc.outer_arrays
        | some _ => acc.outer_arrays,
      outputs := alSet arrname (arrname ++ "_out") acc.outputs }
  | some _ => acc

/-- The classification of one node (the body of the first loop of
`NestSDFG.apply`, lines 544–564): a non-transient access node with outgoing
edges becomes an input, one with incoming edges an output; the node is
renamed to the last `node_data_name` assigned — a Python local that leaks
across iterations, so a zero-degree node reuses the previous node's name or
raises `UnboundLocalError`.  In the source the output branch re-reads
`nested_sdfg.arrays[arrname]`, which the input branch never changed (it only
adds the `_in` key), so the first lookup's descriptor is reused here. -/
def NestSDFG.classifyNode (st : State0) (acc : NestAcc) (p : Nat × Node0) :
    Except String (NestAcc × (Nat × Node0)) :=
  match p.2 with
  | .access arrname =>
    match alGet arrname acc.nested_arrays with
    | none => throw ("KeyError: " ++ arrname)
    | some desc =>
      if desc.transient then
        pure (acc, p)
      else
        let acc :=
          if (outEdges st.edges p.1).length > 0 then
            { NestSDFG.inputStep arrname desc acc with
              node_data_name := some (arrname ++ "_in") }
          else
            acc
        let acc :=
          if (inEdges st.edges p.1).length > 0 then
            { NestSDFG.outputStep arrname desc acc with
              node_data_name := some (arrname ++ "_out") }
          else
            acc
        match acc.node_data_name with
        | some nm => pure (acc, (p.1, .access nm))
        | none => throw "UnboundLocalError: node_data_name"
  | _ => pure (acc, p)

/-- Modelled from the spec: whether a node sits inside a map scope
(`scope_dict[node]`, §4.2 `scope_of`), approximated as being fed directly by a
map entry.  Only consulted by the transient-promotion policy, which is
disabled (`promote_global_trans = False`) in every claim. -/
def inScope (st : State0) (n : Nat) : Bool :=
  st.edges.any (fun e =>
    e.dst = n &&
      match alGet e.src st.nodes with
      | some (.mapEntry _) => true
      | _ => false)

/-- The transient-promotion loop body (lines 566–578, `promote_global_trans`
only): a transient access node outside any scope is promoted to a boundary
output; the rename to `_out` happens outside the guard, so every transient
access node is renamed. -/
def NestSDFG.promoteNode (st : State0) (acc : NestAcc) (p : Nat × Node0) :
    Except String (NestAcc × (Nat × Node0)) :=
  match p.2 with
  | .access arrname =>
    match alGet arrname acc.nested_arrays with
    | none => throw ("KeyError: " ++ arrname)
    | some desc =>
      if desc.transient then
        let acc :=
          if (alGet arrname acc.transients).isNone && !inScope st p.1 then
            { acc with
              nested_arrays := alSet (arrname ++ "_out") desc acc.nested_arrays,
              outer_arrays := alSet arrname desc acc.outer_arrays,
              transients := alSet arrname (arrname ++ "_out") acc.transients }
          else
            acc
        pure (acc, (p.1, .access (arrname ++ "_out")))
      else
        pure (acc, p)
  | _ => pure (acc, p)

/-- Processing of one state by `NestSDFG.apply`: the classification loop over
its nodes, then, when promotion is enabled, the transient-promotion loop over
the (already renamed) nodes. -/
def NestSDFG.classifyState (promote : Bool) (acc : NestAcc) (st : State0) :
    Except String (NestAcc × State0) := do
  let (acc, nodes) ← st.nodes.foldlM
    (fun (q : NestAcc × List (Nat × Node0)) p => do
      let (a2, p2) ← NestSDFG.classifyNode st q.1 p
      pure (a2, q.2 ++ [p2])) (acc, [])
  if promote then
    let (acc, nodes) ← nodes.foldlM
      (fun (q : NestAcc × List (Nat × Node0)) p => do
        let (a2, p2) ← NestSDFG.promoteNode st q.1 p
        pure (a2, q.2 ++ [p2])) (acc, [])
    pure (acc, { st with nodes := nodes })
  else
    pure (acc, { st with nodes := nodes })

/-- The memlet-update loop body (lines 590–605): a memlet named after a
classified array is renamed to the suffixed name when the root (resp. sink) of
its memlet path is an access node already carrying that suffixed name. -/
def NestSDFG.updEdge (st : State0) (inputs outputs : List (String × String)) (e : Edge) : Edge :=
  let path := memlet_path st.edges st.kindOf e
  let srcN := path.head?.bind (fun pe => alGet pe.src st.nodes)
  let dstN := path.getLast?.bind (fun pe => alGet pe.dst st.nodes)
  let mem := e.data
  let tryOutputs : String → String := fun nodeData =>
    match alGet mem.data outputs with
    | some w => if nodeData = w then w else mem.data
    | none => mem.data
  let newData :=
    match srcN with
    | some (.access sdata) =>
      match alGet mem.data inputs with
      | some v => if sdata = v then v else tryOutputs sdata
      | none => tryOutputs sdata
    | _ =>
      match dstN with
      | some (.access ddata) => tryOutputs ddata
      | _ => mem.data
  { e with data := { mem with data := newData } }

/-- `NestSDFG.apply` (Outline): deep-copies the SDFG into a child, clears the
parent, classifies every non-transient access node into boundary
inputs/outputs (optionally promoting top-level transients), drops the
original names from the child table, rewrites memlets to the suffixed names,
and builds a parent with a single state holding one `NestedSDFG` node and one
whole-array boundary edge per classified array.  Python `dict` iteration
follows insertion order, matched by the association lists. -/
def NestSDFG.apply (sdfg : SDFG0) (promote : Bool) : Except String SDFG1 := do
  let acc0 : NestAcc :=
    { inputs := [], outputs := [], transients := [],
      nested_arrays := sdfg.arrays, outer_arrays := [], node_data_name := none }
  let (acc, states) ← sdfg.states.foldlM
    (fun (q : NestAcc × List State0) st => do
      let (a2, st2) ← NestSDFG.classifyState promote q.1 st
      pure (a2, q.2 ++ [st2])) (acc0, [])
  let nestedArrays ← acc.inputs.foldlM
    (fun (m : List (String × ArrayDesc)) kv =>
      match alGet kv.1 m with
      | some _ => pure (alRemove kv.1 m)
      | none => throw ("KeyError: " ++ kv.1)) acc.nested_arrays
  let nestedArrays := acc.outputs.foldl (fun m kv => alRemove kv.1 m) nestedArrays
  let nestedArrays ← acc.transients.foldlM
    (fun (m : List (String × ArrayDesc)) kv =>
      match alGet kv.1 m with
      | none => throw ("KeyError: " ++ kv.1)
      | some _ =>
        let m := alRemove kv.1 m
        match alGet kv.2 m with
        | some d => pure (alSet kv.2 { d with transient := false } m)
        | none => throw ("KeyError: " ++ kv.2)) nestedArrays
  let outputs := acc.transients.foldl (fun o kv => alSet kv.1 kv.2 o) acc.outputs
  let states := states.map (fun st =>
    { st with edges := st.edges.map (NestSDFG.updEdge st acc.inputs outputs) })
  let nested : SDFG0 := { label := sdfg.label, arrays := nestedArrays, states := states }
  let ins := acc.inputs.map (fun kv => kv.2)
  let outs := outputs.map (fun kv => kv.2)
  let nIn := acc.inputs.length
  let inBoundary ← acc.inputs.enum.foldlM
    (fun (l : List Edge) (p : Nat × (String × String)) =>
      match alGet p.2.1 acc.outer_arrays with
      | some d =>
        pure (l ++ [{ eid := p.1, src := 1 + p.1, srcConn := none, dst := 0,
                      dstConn := some p.2.2, data := Memlet.from_array p.2.1 d : Edge }])
      | none => throw ("KeyError: " ++ p.2.1)) []
  let outBoundary ← outputs.enum.foldlM
    (fun (l : List Edge) (p : Nat × (String × String)) =>
      match alGet p.2.1 acc.outer_arrays with
      | some d =>
        pure (l ++ [{ eid := nIn + p.1, src := 0, srcConn := some p.2.2, dst := 1 + nIn + p.1,
                      dstConn := none, data := Memlet.from_array p.2.1 d : Edge }])
      | none => throw ("KeyError: " ++ p.2.1)) []
  let outerState : State1 :=
    { nodes := (0, Node1.nested nested ins outs) ::
        (acc.inputs.enum.map (fun p => (1 + p.1, Node1.base (.access p.2.1)))) ++
        (outputs.enum.map (fun p => (1 + nIn + p.1, Node1.base (.access p.2.1)))),
      edges := inBoundary ++ outBoundary }
  pure { label := sdfg.label, arrays := acc.outer_arrays, states := [outerState] }

/-! ## `InlineSDFG.apply` (Inline)

The parent SDFG's array table and the state holding the `NestedSDFG` node are
threaded through every step, mirroring the in-place mutation of the source:
an error (`ValueError`, `NotImplementedError`, `KeyError`, `StopIteration`)
carries the parent as already mutated at the point the exception is raised. -/

/-- The parent data `InlineSDFG.apply` mutates: the SDFG's array table and the
state containing the candidate node. -/
structure Parent where
  arrays : List (String × ArrayDesc)
  st : State1
deriving DecidableEq, Repr

/-- The empty memlet (`EmptyMemlet()`, a memlet moving no data). -/
def emptyMemlet : Memlet := { data := "", subset := [] }

/-- Modelled from the spec: `add_datadesc(name, desc, find_new_name=True)` —
"allocate a uniquely-named ArrayDescriptor in the parent table (suffix on
collision)" (§4.4 step 2): numeric suffixes are tried in order.  Fueled by the
table size, which bounds the number of collisions. -/
def find_new_name_aux (base : String) (arrays : List (String × ArrayDesc)) :
    Nat → Nat → String
  | 0, i => base ++ "_" ++ toString i
  | fuel + 1, i =>
    let cand := base ++ "_" ++ toString i
    if (alGet cand arrays).isNone then cand else find_new_name_aux base arrays fuel (i + 1)

/-- Modelled from the spec: the fresh name chosen on collision. -/
def find_new_name (base : String) (arrays : List (String × ArrayDesc)) : String :=
  if (alGet base arrays).isNone then base
  else find_new_name_aux base arrays (arrays.length + 1) 0

/-- Largest node handle in use (fresh handles start above it). -/
def maxNodeId (st : State1) : Nat := st.nodes.foldl (fun m p => max m p.1) 0

/-- Largest edge handle in use. -/
def maxEid (es : List Edge) : Nat := es.foldl (fun m e => max m e.eid) 0

/-- Modelled from the spec: `entry_node(node)` — the map entry of the scope
holding the node (§4.2 `scope_of`), approximated as a map entry with a direct
edge to the node; `none` at top level.  Every concrete claim below places the
candidate outside any scope. -/
def State1.entry_node (st : State1) (n : Nat) : Option Nat :=
  (st.edges.find? (fun e =>
    e.dst = n &&
      match alGet e.src st.nodes with
      | some (.base (.mapEntry _)) => true
      | _ => false)).map (fun e => e.src)

/-- The first map exit matching a map entry's descriptor (`exit_nodes(entry)`;
the source passes the whole list where a single node is expected — a latent
slip in an unexercised branch; the model takes the first exit). -/
def State1.exit_for (st : State1) (entryId : Nat) : Option Nat :=
  match alGet entryId st.nodes with
  | some (.base (.mapEntry mid)) =>
    (st.nodes.find? (fun p =>
      match p.2 with
      | .base (.mapExit m) => m == mid
      | _ => false)).map (fun p => p.1)
  | _ => none

/-- Kahn-style topological order of the node handles of a flat state
(modelled from the spec: "topological order", §4.2), returning remaining
nodes as-is if a cycle blocks progress. -/
def topoAux : Nat → List Nat → List Edge → List Nat
  | 0, rem, _ => rem
  | fuel + 1, rem, es =>
    match rem.find? (fun n => !es.any (fun e => e.dst = n && rem.contains e.src)) with
    | some n => n :: topoAux fuel (rem.erase n) es
    | none => rem

/-- Topological order of a flat state's nodes. -/
def State0.topoOrder (st : State0) : List Nat :=
  topoAux st.nodes.length (st.nodes.map (fun p => p.1)) st.edges

/-- Step 2 of Inline (lines 195–204): every child transient referenced by an
access node gains a uniquely-named descriptor in the parent table
(`<label>_<name>`, suffixed on collision); returns the extended table and the
rename map. -/
def InlineSDFG.addTransients (child : SDFG0) (nstate : State0)
    (arrays : List (String × ArrayDesc)) :
    Except String (List (String × ArrayDesc) × List (String × String)) :=
  nstate.nodes.foldlM
    (fun (q : List (String × ArrayDesc) × List (String × String)) p =>
      match p.2 with
      | .access dataName =>
        match alGet dataName child.arrays with
        | none => throw ("KeyError: " ++ dataName)
        | some datadesc =>
          if (alGet dataName q.2).isNone ∧ datadesc.transient then
            let nm := find_new_name (child.label ++ "_" ++ dataName) q.1
            pure (alSet nm datadesc q.1, alSet dataName nm q.2)
          else
            pure q
      | _ => pure q)
    (arrays, [])

/-- Steps 3 of Inline (lines 210–221): the child's boundary source (resp.
sink) access nodes that are not transients, each paired with the outer edge of
the connector carrying its name; a `KeyError` escapes when no such connector
exists. -/
def InlineSDFG.collectBoundary (nstate : State0) (transients : List (String × String))
    (connMap : List (Option String × Edge)) (nodeIds : List Nat) :
    Except String (List (Nat × Edge)) :=
  nodeIds.foldlM
    (fun (acc : List (Nat × Edge)) i =>
      match alGet i nstate.nodes with
      | some (.access d) =>
        if (alGet d transients).isNone then
          match alGet (some d) connMap with
          | some e => pure (acc ++ [(i, e)])
          | none => throw ("KeyError: " ++ d)
        else
          pure acc
      | _ => pure acc)
    []

/-- Data-name substitution pass (`sd.replace` over the copied subgraph,
lines 240–247): renames access-node data and memlet data names. -/
def replData (repl : List (String × String)) (s : String) : String :=
  (alGet s repl).getD s

/-- Replaces one edge's memlet by `eid` (in-place edge data assignment). -/
def setEdgeData (es : List Edge) (eid : Nat) (m : Memlet) : List Edge :=
  es.map (fun e => if e.eid = eid then { e with data := m } else e)

/-- `InlineSDFG._modify_memlet_path` (lines 468–500) for one direction: for
each boundary access node, splices the outer edge onto each inner edge with
the recomputed memlet, then rewrites the memlets of the rest of the new
edge's memlet tree (forward of it for inputs, backward for outputs),
recording their handles as modified.  Tree edges are re-read by handle before
modification, matching in-place object mutation. -/
def InlineSDFG.splice (isInput : Bool) (ofs : Nat) (renCh : State0)
    (newBoundary : List (Nat × Edge)) (st : State1) (modified : List Nat) :
    Except (String × State1) (State1 × List Nat) :=
  newBoundary.foldlM
    (fun (q : State1 × List Nat) kv => do
      let inner_edges :=
        if isInput then outEdges renCh.edges kv.1 else inEdges renCh.edges kv.1
      inner_edges.foldlM
        (fun (q2 : State1 × List Nat) inner => do
          let (st, modified) := q2
          let top := kv.2
          let new_memlet ←
            (modify_memlet inner.data top.data).mapError (fun m => (m, st))
          let ne : Edge :=
            if isInput then
              { eid := maxEid st.edges + 1, src := top.src, srcConn := top.srcConn,
                dst := inner.dst + ofs, dstConn := inner.dstConn, data := new_memlet }
            else
              { eid := maxEid st.edges + 1, src := inner.src + ofs, srcConn := inner.srcConn,
                dst := top.dst, dstConn := top.dstConn, data := new_memlet }
          let st := { st with edges := st.edges ++ [ne] }
          let mtree := memlet_tree st.edges st.kindOf ne
          let idx := (mtree.findIdx? (fun te => te.eid = ne.eid)).getD 0
          let slice := if isInput then mtree.drop (idx + 1) else mtree.take idx
          (slice.map (fun te => te.eid)).foldlM
            (fun (q3 : State1 × List Nat) teid => do
              let (st, modified) := q3
              match st.edges.find? (fun e => e.eid = teid) with
              | none => pure (st, modified)
              | some te => do
                let nm ← (modify_memlet te.data kv.2.data).mapError (fun m => (m, st))
                pure ({ st with edges := setEdgeData st.edges teid nm }, modified ++ [teid]))
            (st, modified ++ []))
        q)
    (st, modified)

/-- Step 3 of the class docstring (lines 261–273): for every copied access
node whose (renamed) data is an outer input (resp. output) array, rewrites
its outgoing (resp. incoming) edges not already modified by the splicing
pass. -/
def InlineSDFG.modifyInternal (ofs : Nat) (copied : List (Nat × Node0))
    (input_set output_set : List (String × Option String))
    (inputsM outputsM : List (Option String × Edge))
    (modified : List Nat) (st : State1) : Except (String × State1) State1 :=
  copied.foldlM
    (fun (st : State1) p => do
      match p.2 with
      | .access d =>
        let st ←
          match alGet d input_set with
          | none => pure st
          | some conn =>
            match alGet conn inputsM with
            | none => throw ("KeyError: input connector", st)
            | some top =>
              ((outEdges st.edges (p.1 + ofs)).map (fun e => e.eid)).foldlM
                (fun (st : State1) eid => do
                  if modified.contains eid then
                    pure st
                  else
                    match st.edges.find? (fun e => e.eid = eid) with
                    | none => pure st
                    | some e => do
                      let nm ← (modify_memlet e.data top.data).mapError (fun m => (m, st))
                      pure { st with edges := setEdgeData st.edges eid nm })
                st
        match alGet d output_set with
        | none => pure st
        | some conn =>
          match alGet conn outputsM with
          | none => throw ("KeyError: output connector", st)
          | some top =>
            ((inEdges st.edges (p.1 + ofs)).map (fun e => e.eid)).foldlM
              (fun (st : State1) eid => do
                if modified.contains eid then
                  pure st
                else
                  match st.edges.find? (fun e => e.eid = eid) with
                  | none => pure st
                  | some e => do
                    let nm ← (modify_memlet e.data top.data).mapError (fun m => (m, st))
                    pure { st with edges := setEdgeData st.edges eid nm })
              st
      | _ => pure st)
    st

/-- Step 4 of the class docstring (lines 278–285): inside a map scope, copied
nodes with no incoming (resp. outgoing) edge are tied to the scope entry
(resp. exit) with an empty memlet. -/
def InlineSDFG.scopeConnect (entry? exit? : Option Nat) (ofs : Nat)
    (copied : List (Nat × Node0)) (st : State1) : State1 :=
  match entry? with
  | none => st
  | some en =>
    copied.foldl
      (fun (st : State1) p =>
        let nid := p.1 + ofs
        let st :=
          if (inEdges st.edges nid).isEmpty then
            { st with edges := st.edges ++
                [{ eid := maxEid st.edges + 1, src := en, srcConn := none, dst := nid,
                   dstConn := none, data := emptyMemlet }] }
          else
            st
        if (outEdges st.edges nid).isEmpty then
          match exit? with
          | some ex =>
            { st with edges := st.edges ++
                [{ eid := maxEid st.edges + 1, src := nid, srcConn := none, dst := ex,
                   dstConn := none, data := emptyMemlet }] }
          | none => st
        else
          st)
      st

/-- The inner walk of `_remove_edge_path`: removes path edges while the walked
edge is the only one sharing its connector at the walked endpoint, stopping
(`break`) at the first sibling.  Returns whether the walk reached the path's
terminus without breaking. -/
def removeWalk (reverse : Bool) : List Edge → State1 → State1 × Bool
  | [], st => (st, true)
  | pe :: rest, st =>
    let siblings :=
      if reverse then (outEdges st.edges pe.src).filter (fun e => e.srcConn = pe.srcConn)
      else (inEdges st.edges pe.dst).filter (fun e => e.dstConn = pe.dstConn)
    if siblings.length = 1 then
      removeWalk reverse rest { st with edges := st.edges.filter (fun e => e.eid ≠ pe.eid) }
    else
      (st, false)

/-- `_remove_edge_path` for one boundary edge: walks its memlet path (in
reverse for inputs), removing edges while safe; a walk that reaches the
terminus also removes the external node there, collecting the edges on the
node's other side for later reconnection. -/
def InlineSDFG.removeEdgePathStep (reverse : Bool) (st : State1) (edge : Edge) :
    State1 × List Edge :=
  let path := memlet_path st.edges st.kindOf edge
  let walk := if reverse then path.reverse else path
  let (st2, noBreak) := removeWalk reverse walk st
  if noBreak then
    match walk.getLast? with
    | some pe =>
      let nodeId := if reverse then pe.src else pe.dst
      let collected := if reverse then inEdges st2.edges nodeId else outEdges st2.edges nodeId
      ({ nodes := st2.nodes.filter (fun p => p.1 ≠ nodeId),
         edges := st2.edges.filter (fun e => e.src ≠ nodeId && e.dst ≠ nodeId) },
        collected)
    | none => (st2, [])
  else
    (st2, [])

/-- `_remove_edge_path` over a boundary edge map.  In the source the `unused`
argument is `set(inputs.keys()) - source_accesses` — a set of connector
*strings* minus a set of access-node *objects*, which removes nothing — so
every entry of the map is processed. -/
def InlineSDFG.removeEdgePaths (reverse : Bool) (edgeMap : List (Option String × Edge))
    (st : State1) : State1 × List Edge :=
  edgeMap.foldl
    (fun (q : State1 × List Edge) kv =>
      let (st2, res) := InlineSDFG.removeEdgePathStep reverse q.1 kv.2
      (st2, q.2 ++ res))
    (st, [])

/-- Lines 300–314: edges collected from removed external nodes are re-attached
to the first (inputs) or last (outputs) access node of the child state, in
topological order, that references the same array; `StopIteration` escapes
when none does. -/
def InlineSDFG.readd (isInput : Bool) (ofs : Nat) (renCh : State0) (order : List Nat)
    (removed : List Edge) (st : State1) : Except (String × State1) State1 :=
  removed.foldlM
    (fun (st : State1) edge => do
      let ord := if isInput then order else order.reverse
      match ord.find? (fun n =>
          match alGet n renCh.nodes with
          | some (.access d) => d == edge.data.data
          | _ => false) with
      | some n =>
        let ne : Edge :=
          if isInput then
            { eid := maxEid st.edges + 1, src := edge.src, srcConn := edge.srcConn,
              dst := n + ofs, dstConn := edge.dstConn, data := edge.data }
          else
            { eid := maxEid st.edges + 1, src := n + ofs, srcConn := edge.srcConn,
              dst := edge.dst, dstConn := edge.dstConn, data := edge.data }
        pure { st with edges := st.edges ++ [ne] }
      | none => throw ("StopIteration", st))
    st

/-- `InlineSDFG.apply`: inlines the single-state child of the `NestedSDFG`
node at `nsdfgId` into the parent.  The copied subgraph excludes the boundary
source/sink access nodes; the substitution pass of lines 240–247 applies only
to the subgraph view (boundary-touching edges keep their data names and are
renamed by `_modify_memlet` instead).  The source copies node and memlet
objects by reference and renames them afterwards; copying the renamed values
is observably identical.  Parent back-references of nested children of the
child (lines 288–291) are informational and not modelled. -/
def InlineSDFG.apply (p : Parent) (nsdfgId : Nat) : Except (String × Parent) Parent := do
  match alGet nsdfgId p.st.nodes with
  | some (.nested child _ _) =>
    match child.states with
    | [nstate] =>
      let st0 := p.st
      let entry? := st0.entry_node nsdfgId
      let exit? := entry?.bind st0.exit_for
      let inputsM := (inEdges st0.edges nsdfgId).foldl (fun m e => alSet e.dstConn e m) []
      let outputsM := (outEdges st0.edges nsdfgId).foldl (fun m e => alSet e.srcConn e m) []
      let input_set := (inEdges st0.edges nsdfgId).foldl
        (fun m e => alSet e.data.data e.dstConn m) []
      let output_set := (outEdges st0.edges nsdfgId).foldl
        (fun m e => alSet e.data.data e.srcConn m) []
      let (arrays2, transients) ←
        (InlineSDFG.addTransients child nstate p.arrays).mapError (fun m => (m, p))
      let p1 : Parent := { arrays := arrays2, st := st0 }
      let sourceIds := (nstate.nodes.filter (fun q => (inEdges nstate.edges q.1).isEmpty)).map
        (fun q => q.1)
      let sinkIds := (nstate.nodes.filter (fun q => (outEdges nstate.edges q.1).isEmpty)).map
        (fun q => q.1)
      let newIncoming ←
        (InlineSDFG.collectBoundary nstate transients inputsM sourceIds).mapError
          (fun m => (m, p1))
      let sourceAccesses := newIncoming.map (fun kv => kv.1)
      let newOutgoing ←
        (InlineSDFG.collectBoundary nstate transients outputsM sinkIds).mapError
          (fun m => (m, p1))
      let sinkAccesses := newOutgoing.map (fun kv => kv.1)
      let boundary := sourceAccesses ++ sinkAccesses
      let subIds := ((nstate.nodes.filter (fun q => !boundary.contains q.1))).map (fun q => q.1)
      let repldict := (inputsM ++ outputsM).foldl
        (fun m kv =>
          match kv.1 with
          | some c => alSet c kv.2.data.data m
          | none => m)
        transients
      let renCh : State0 :=
        { nodes := nstate.nodes.map (fun q =>
            if boundary.contains q.1 then q
            else
              match q.2 with
              | .access d => (q.1, Node0.access (replData repldict d))
              | _ => q),
          edges := nstate.edges.map (fun e =>
            if subIds.contains e.src && subIds.contains e.dst then
              { e with data := { e.data with data := replData repldict e.data.data } }
            else
              e) }
      let copiedNodes := renCh.nodes.filter (fun q => !boundary.contains q.1)
      let ofs := maxNodeId st0 + 1
      let e0 := maxEid st0.edges + 1
      let copiedEdges :=
        ((renCh.edges.filter (fun e => subIds.contains e.src && subIds.contains e.dst)).enum).map
          (fun q => { q.2 with eid := e0 + q.1, src := q.2.src + ofs, dst := q.2.dst + ofs })
      let st : State1 :=
        { st0 with
          nodes := st0.nodes ++ copiedNodes.map (fun q => (q.1 + ofs, Node1.base q.2)),
          edges := st0.edges ++ copiedEdges }
      let (st, modified) ←
        (InlineSDFG.splice true ofs renCh newIncoming st []).mapError
          (fun q => (q.1, { arrays := arrays2, st := q.2 }))
      let (st, modified) ←
        (InlineSDFG.splice false ofs renCh newOutgoing st modified).mapError
          (fun q => (q.1, { arrays := arrays2, st := q.2 }))
      let st ←
        (InlineSDFG.modifyInternal ofs copiedNodes input_set output_set inputsM outputsM
            modified st).mapError
          (fun q => (q.1, { arrays := arrays2, st := q.2 }))
      let st := InlineSDFG.scopeConnect entry? exit? ofs copiedNodes st
      let (st, removedIn) := InlineSDFG.removeEdgePaths true inputsM st
      let (st, removedOut) := InlineSDFG.removeEdgePaths false outputsM st
      let order := renCh.topoOrder.filter (fun n =>
        match alGet n renCh.nodes with
        | some (.access _) => true
        | _ => false)
      let st ←
        (InlineSDFG.readd true ofs renCh order removedIn st).mapError
          (fun q => (q.1, { arrays := arrays2, st := q.2 }))
      let st ←
        (InlineSDFG.readd false ofs renCh order removedOut st).mapError
          (fun q => (q.1, { arrays := arrays2, st := q.2 }))
      let st : State1 :=
        { nodes := st.nodes.filter (fun q => q.1 ≠ nsdfgId),
          edges := st.edges.filter (fun e => e.src ≠ nsdfgId && e.dst ≠ nsdfgId) }
      pure { arrays := arrays2, st := st }
    | _ => throw ("IndexError: the nested SDFG does not have a unique state", p)
  | _ => throw ("AttributeError: candidate is not a NestedSDFG node", p)

/-- The error payload of a failed `apply`: message and the parent as mutated
up to the raise. -/
def errInfo : Except (String × Parent) Parent → Option (String × Parent)
  | .error q => some q
  | .ok _ => none

/-! ### Scenario A (claim C4) -/

/-- The child state of Scenario A: `in_node -> Tasklet -> out_node`, memlet
subset `[0:10]` on both sides. -/
def c4childState : State0 :=
  { nodes := [(0, .access "in0"), (1, .tasklet 0), (2, .access "out0")],
    edges := [{ eid := 0, src := 0, srcConn := none, dst := 1, dstConn := some "x",
                data := { data := "in0", subset := [((0 : Int), 9, 1)] } },
              { eid := 1, src := 1, srcConn := some "y", dst := 2, dstConn := none,
                data := { data := "out0", subset := [((0 : Int), 9, 1)] } }] }

/-- The child SDFG of Scenario A. -/
def c4child : SDFG0 :=
  { label := "n",
    arrays := [("in0", { shape := [10], transient := false }),
               ("out0", { shape := [10], transient := false })],
    states := [c4childState] }

/-- The parent of Scenario A: `A -> NestedGraph("in0") -> B`, subset `[0:10]`
on both boundary edges. -/
def c4parent : Parent :=
  { arrays := [("A", { shape := [10], transient := false }),
               ("B", { shape := [10], transient := false })],
    st := { nodes := [(1, .base (.access "A")), (2, .nested c4child ["in0"] ["out0"]),
                      (3, .base (.access "B"))],
            edges := [{ eid := 0, src := 1, srcConn := none, dst := 2, dstConn := some "in0",
                        data := { data := "A", subset := [((0 : Int), 9, 1)] } },
                      { eid := 1, src := 2, srcConn := some "out0", dst := 3, dstConn := none,
                        data := { data := "B", subset := [((0 : Int), 9, 1)] } }] } }

/-! ### The unsupported-configuration errors (claim C2) -/

/-- A child whose boundary memlet has rank 2 against a rank-1 outer memlet,
plus a transient `t` (to witness descriptor addition). -/
def c2childState : State0 :=
  { nodes := [(0, .access "in0"), (1, .tasklet 0), (2, .access "t")],
    edges := [{ eid := 0, src := 0, srcConn := none, dst := 1, dstConn := some "x",
                data := { data := "in0", subset := [((0 : Int), 0, 1), ((0 : Int), 0, 1)] } },
              { eid := 1, src := 1, srcConn := some "y", dst := 2, dstConn := none,
                data := { data := "t", subset := [((0 : Int), 4, 1)] } }] }

/-- The child SDFG of the rank-error configuration. -/
def c2child : SDFG0 :=
  { label := "n",
    arrays := [("in0", { shape := [10], transient := false }),
               ("t", { shape := [5], transient := true })],
    states := [c2childState] }

/-- The parent of the rank-error configuration. -/
def c2parent : Parent :=
  { arrays := [("A", { shape := [10], transient := false })],
    st := { nodes := [(1, .base (.access "A")), (2, .nested c2child ["in0"] [])],
            edges := [{ eid := 0, src := 1, srcConn := none, dst := 2, dstConn := some "in0",
                        data := { data := "A", subset := [((0 : Int), 9, 1)] } }] } }

/-- Same child with matching ranks (the `other_subset` configuration). -/
def c2bChildState : State0 :=
  { nodes := [(0, .access "in0"), (1, .tasklet 0), (2, .access "t")],
    edges := [{ eid := 0, src := 0, srcConn := none, dst := 1, dstConn := some "x",
                data := { data := "in0", subset := [((0 : Int), 9, 1)] } },
              { eid := 1, src := 1, srcConn := some "y", dst := 2, dstConn := none,
                data := { data := "t", subset := [((0 : Int), 4, 1)] } }] }

/-- The child SDFG of the `other_subset` configuration. -/
def c2bChild : SDFG0 :=
  { label := "n",
    arrays := [("in0", { shape := [10], transient := false }),
               ("t", { shape := [5], transient := true })],
    states := [c2bChildState] }

/-- The parent whose boundary memlet carries a secondary (`other_subset`)
subset. -/
def c2bParent : Parent :=
  { arrays := [("A", { shape := [10], transient := false })],
    st := { nodes := [(1, .base (.access "A")), (2, .nested c2bChild ["in0"] [])],
            edges := [{ eid := 0, src := 1, srcConn := none, dst := 2, dstConn := some "in0",
                        data := { data := "A", subset := [((0 : Int), 9, 1)],
                                  other_subset := some [((0 : Int), 9, 1)] } }] } }

/-! ### The Outline∘Inline round trip (claim C1) -/

/-- The failing input of C1: a single-state SDFG reading non-transient `Y`
into a tasklet, with an additional *isolated* non-transient access node `X`. -/
def c1state : State0 :=
  { nodes := [(0, .access "Y"), (1, .tasklet 0), (2, .access "X")],
    edges := [{ eid := 0, src := 0, srcConn := none, dst := 1, dstConn := some "a",
                data := { data := "Y", subset := [((0 : Int), 9, 1)] } }] }

/-- The failing SDFG of C1. -/
def c1sdfg : SDFG0 :=
  { label := "prog",
    arrays := [("Y", { shape := [10], transient := false }),
               ("X", { shape := [5], transient := false })],
    states := [c1state] }

/-- The Outline result on the failing input. -/
def c1out : Option SDFG1 := (NestSDFG.apply c1sdfg false).toOption

/-- The child state produced by Outline. -/
def c1childStateOpt : Option State0 :=
  c1out.bind (fun r => r.states.head?.bind (fun os =>
    match alGet 0 os.nodes with
    | some (.nested ch _ _) => ch.states.head?
    | _ => none))

/-- Inline run on the `NestedGraph` node produced by Outline. -/
def c1inline : Option (Except (String × Parent) Parent) :=
  c1out.bind (fun r => r.states.head?.map (fun os =>
    InlineSDFG.apply { arrays := r.arrays, st := os } 0))

/-- Keys of an association list are pairwise distinct. -/
def NodupKeys {β : Type} (m : List (String × β)) : Prop :=
  (m.map (fun kv => kv.1)).Nodup

/-- The invariant carried through the classification fold for a fixed
non-transient array `X` (promotion disabled). -/
structure C6Inv (X : String) (descX : ArrayDesc) (acc : NestAcc) : Prop where
  harr : alGet X acc.nested_arrays = some descX
  hin_nodup : NodupKeys acc.inputs
  hout_nodup : NodupKeys acc.outputs
  houter_nodup : NodupKeys acc.outer_arrays
  houter : (alGet X acc.outer_arrays).isSome ↔
    ((alGet X acc.inputs).isSome ∨ (alGet X acc.outputs).isSome)
  hxin : (alGet X acc.inputs).isSome → (alGet (X ++ "_in") acc.nested_arrays).isSome
  hxout : (alGet X acc.outputs).isSome → (alGet (X ++ "_out") acc.nested_arrays).isSome
  hkeys_in : ∀ k v, (k, v) ∈ acc.inputs → k ≠ X ++ "_in" ∧ k ≠ X ++ "_out"
  hkeys_out : ∀ k v, (k, v) ∈ acc.outputs → k ≠ X ++ "_in" ∧ k ≠ X ++ "_out"
  htrans : acc.transients = []

/-- Concrete two-state SDFG for exercising the read/write classification:
state 1 reads `X` into a tasklet, state 2 writes `X` from a tasklet. -/
def C6wSDFG : SDFG0 :=
  { label := "prog",
    arrays := [("X", { shape := [10], transient := false })],
    states :=
      [{ nodes := [(0, Node0.access "X"), (1, Node0.tasklet 0)],
         edges := [{ eid := 0, src := 0, srcConn := none, dst := 1, dstConn := some "a",
                     data := { data := "X", subset := [((0 : Int), 9, 1)] } }] },
       { nodes := [(0, Node0.tasklet 1), (1, Node0.access "X")],
         edges := [{ eid := 1, src := 0, srcConn := some "b", dst := 1, dstConn := none,
                     data := { data := "X", subset := [((0 : Int), 9, 1)] } }] }] }

/-- The result of `NestSDFG.apply C6wSDFG false`, written out. -/
def C6wR : SDFG1 :=
  { label := "prog",
    arrays := [("X", { shape := [10], transient := false })],
    states :=
      [{ nodes :=
           [(0, Node1.nested
                 { label := "prog",
                   arrays := [("X_in", { shape := [10], transient := false }),
                              ("X_out", { shape := [10], transient := false })],
                   states :=
                     [{ nodes := [(0, Node0.access "X_in"), (1, Node0.tasklet 0)],
                        edges := [{ eid := 0, src := 0, srcConn := none, dst := 1,
                                    dstConn := some "a",
                                    data := { data := "X_in",
                                              subset := [((0 : Int), 9, 1)] } }] },
                      { nodes := [(0, Node0.tasklet 1), (1, Node0.access "X_out")],
                        edges := [{ eid := 1, src := 0, srcConn := some "b", dst := 1,
                                    dstConn := none,
                                    data := { data := "X_out",
                                              subset := [((0 : Int), 9, 1)] } }] }] }
                 ["X_in"] ["X_out"]),
            (1, Node1.base (Node0.access "X")),
            (2, Node1.base (Node0.access "X"))],
         edges :=
           [{ eid := 0, src := 1, srcConn := none, dst := 0, dstConn := some "X_in",
              data := { data := "X", subset := [((0 : Int), 9, 1)] } },
            { eid := 1, src := 0, srcConn := some "X_out", dst := 2, dstConn := none,
              data := { data := "X", subset := [((0 : Int), 9, 1)] } }] }] }

/-- Scope balance of a flat state: every map entry has exactly one matching
map exit (the spec's invariant, counted over the shared map descriptor). -/
def State0.balanced (st : State0) : Prop :=
  ∀ mid, (∃ i, (i, Node0.mapEntry mid) ∈ st.nodes) →
    st.nodes.countP (fun q => q.2 = Node0.mapExit mid) = 1

/-- Scope balance of a level-1 state. -/
def State1.balanced (st : State1) : Prop :=
  ∀ mid, (∃ i, (i, Node1.base (Node0.mapEntry mid)) ∈ st.nodes) →
    st.nodes.countP (fun q => q.2 = Node1.base (Node0.mapExit mid)) = 1

/-- A one-state SDFG holding a lone map entry with no matching exit. -/
def c7sdfg : SDFG0 :=
  { label := "p", arrays := [],
    states := [{ nodes := [(0, Node0.mapEntry 0)], edges := [] }] }

/-- The state produced by inlining Scenario A, used to instantiate the scope
balance theorem. -/
def c7r : Parent :=
  { arrays := [("A", { shape := [10], transient := false }),
               ("B", { shape := [10], transient := false })],
    st := { nodes := [(1, .base (.access "A")), (3, .base (.access "B")),
                      (5, .base (.tasklet 0))],
            edges := [{ eid := 2, src := 1, srcConn := none, dst := 5,
                        dstConn := some "x",
                        data := { data := "A", subset := [((0 : Int), 9, 1)] } },
                      { eid := 3, src := 5, srcConn := some "y", dst := 3,
                        dstConn := none,
                        data := { data := "B", subset := [((0 : Int), 9, 1)] } }] } }

end DaceNesting

namespace DaceSourcemap

theorem matchDigits_digits (cs : List Char) : ∀ c ∈ (matchDigits cs).1, c.isDigit := by
  induction cs with
  | nil => simp [matchDigits]
  | cons c cs ih =>
    simp only [matchDigits]
    split
    · intro x hx
      simp at hx
      rcases hx with h | h
      · subst h; assumption
      · exact ih x h
    · simp

theorem matchPairs_chars (cs : List Char) : ∀ c ∈ (matchPairs cs).1, c = ',' ∨ c.isDigit := by
  induction cs using matchPairs.induct with
  | case1 c cs hdig d r hpr ih =>
    simp only [matchPairs, if_pos hdig, hpr]
    intro x hx
    simp at hx
    rcases hx with h | h | h
    · left; exact h
    · right; subst h; exact hdig
    · exact ih x (by rw [hpr]; exact h)
  | case2 c cs hdig =>
    simp [matchPairs, if_neg hdig]
  | case3 cs h =>
    match cs, h with
    | [], _ => simp [matchPairs]
    | [c], _ => simp [matchPairs]
    | c :: c2 :: cs, h =>
      have hc : c ≠ ',' := fun hc => h c2 cs (by rw [hc])
      simp [matchPairs]

/-- Every successful match of the identifier pattern starts with the
`////__DACE:` marker followed by a single digit, a colon, a single digit, a
colon, and a colon-free tail. -/
theorem matchIdent_shape (cs idf rest : List Char) (h : matchIdent cs = some (idf, rest)) :
    ∃ d1 d2 tail, d1.isDigit ∧ d2.isDigit ∧
      idf = daceTag ++ d1 :: ':' :: d2 :: ':' :: tail ∧ ∀ c ∈ tail, c ≠ ':' := by
  unfold matchIdent at h
  split at h
  · exact absurd h (by simp)
  · split at h
    · split at h
      · rename_i x r1 d1 d2 rst heq hif
        rcases hd : matchDigits rst with ⟨ds, r2⟩
        simp only [hd] at h
        rcases hp : matchPairs r2 with ⟨ps, r3⟩
        simp only [hp, Option.some.injEq, Prod.mk.injEq] at h
        refine ⟨d1, d2, ds ++ ps, hif.1, hif.2, h.1.symm, ?_⟩
        intro c hc
        simp at hc
        rcases hc with h1 | h1
        · have := matchDigits_digits rst c (by rw [hd]; exact h1)
          intro hcol
          rw [hcol] at this
          exact absurd this (by decide)
        · have := matchPairs_chars r2 c (by rw [hp]; exact h1)
          intro hcol
          rw [hcol] at this
          rcases this with h2 | h2
          · exact absurd h2 (by decide)
          · exact absurd h2 (by decide)
      · exact absurd h (by simp)
    · exact absurd h (by simp)

theorem findIdentsAux_shape (n : Nat) (cs : List Char) :
    ∀ idf ∈ findIdentsAux n cs,
      ∃ d1 d2 tail, d1.isDigit ∧ d2.isDigit ∧
        idf = daceTag ++ d1 :: ':' :: d2 :: ':' :: tail ∧ ∀ c ∈ tail, c ≠ ':' := by
  induction n generalizing cs with
  | zero => simp [findIdentsAux]
  | succ n ih =>
    match cs with
    | [] => simp [findIdentsAux]
    | c :: cs =>
      intro idf hidf
      simp only [findIdentsAux] at hidf
      split at hidf
      case h_1 x idf0 rest0 heq =>
        simp at hidf
        rcases hidf with h1 | h1
        · rw [h1]
          exact matchIdent_shape (c :: cs) idf0 rest0 heq
        · exact ih _ idf h1
      case h_2 => exact ih _ idf hidf

/-- C10: `MapCpp.get_identifiers` only recognises embedded
`////__DACE:<sdfg>:<state>:<nodes>` identifiers whose SDFG id and state id are
each a single decimal digit (every returned identifier is the marker, one
digit, `:`, one digit, `:`, and a colon-free node field); on the concrete line
`x = y ////__DACE:10:0:0`, whose SDFG id has two digits, no identifier is
returned and the C++ line mapping built from that code receives no node
entry. -/
theorem C10_single_digit_ids :
    (∀ (line : List Char), ∀ idf ∈ MapCpp.get_identifiers line,
        ∃ d1 d2 tail, d1.isDigit ∧ d2.isDigit ∧
          idf = daceTag ++ d1 :: ':' :: d2 :: ':' :: tail ∧ ∀ c ∈ tail, c ≠ ':') ∧
      MapCpp.get_identifiers ("x = y ////__DACE:10:0:0".toList) = [] ∧
      MapCpp.mapper ["x = y ////__DACE:10:0:0".toList] "cpu" =
        { target := "cpu", entries := [] } :=
  ⟨fun line => findIdentsAux_shape line.length line, by decide, by decide⟩

/-- Witness for C10: the single-identifier line `////__DACE:3:4:5` is
recognised, and the theorem's shape conclusion holds for it. -/
theorem C10_single_digit_ids_witness :
    ∃ d1 d2 tail, d1.isDigit ∧ d2.isDigit ∧
      "////__DACE:3:4:5".toList = daceTag ++ d1 :: ':' :: d2 :: ':' :: tail ∧
        ∀ c ∈ tail, c ≠ ':' :=
  C10_single_digit_ids.1 ("////__DACE:3:4:5".toList) ("////__DACE:3:4:5".toList) (by decide)

theorem alGet_alSet_self {α β : Type} [DecidableEq α] (k : α) (v : β) (m : List (α × β)) :
    alGet k (alSet k v m) = some v := by
  induction m with
  | nil => simp [alGet, alSet]
  | cons h t ih =>
    rcases h with ⟨k', v'⟩
    by_cases hk : k' = k
    · simp [alGet, alSet, hk]
    · simp [alGet, alSet, hk, ih]

theorem alGet_alSet_ne {α β : Type} [DecidableEq α] (k k' : α) (v : β) (m : List (α × β))
    (h : k' ≠ k) : alGet k (alSet k' v m) = alGet k m := by
  induction m with
  | nil => simp [alGet, alSet, h]
  | cons hd t ih =>
    rcases hd with ⟨k'', v''⟩
    by_cases hk : k'' = k'
    · subst hk
      simp [alGet, alSet, h]
    · simp only [alSet, if_neg hk, alGet]
      by_cases hk2 : k'' = k
      · simp [hk2]
      · simp [hk2, ih]

theorem alGet_addRecord_self (m : PyMap) (r : DbgRec) :
    (alGet r.debuginfo.filename (addRecord m r)).isSome := by
  simp [addRecord, alGet_alSet_self]

theorem alGet_addRecord_mono (m : PyMap) (r : DbgRec) (k : String)
    (h : (alGet k m).isSome) : (alGet k (addRecord m r)).isSome := by
  unfold addRecord
  by_cases hk : r.debuginfo.filename = k
  · rw [hk, alGet_alSet_self]; simp
  · rw [alGet_alSet_ne _ _ _ _ hk]; exact h

theorem alGet_foldl_addRecord_mono (g : List DbgRec) (m : PyMap) (k : String)
    (h : (alGet k m).isSome) : (alGet k (g.foldl addRecord m)).isSome := by
  induction g generalizing m with
  | nil => exact h
  | cons r t ih => exact ih _ (alGet_addRecord_mono m r k h)

theorem alGet_foldl_addRecord_mem (g : List DbgRec) (m : PyMap) (r : DbgRec)
    (h : r ∈ g) : (alGet r.debuginfo.filename (g.foldl addRecord m)).isSome := by
  induction g generalizing m with
  | nil => cases h
  | cons x t ih =>
    rcases List.mem_cons.mp h with h1 | h1
    · subst h1
      exact alGet_foldl_addRecord_mono t _ _ (alGet_addRecord_self m r)
    · exact ih _ h1

theorem alGet_foldl_groups_mono (gs : List (List DbgRec)) (m : PyMap) (k : String)
    (h : (alGet k m).isSome) :
    (alGet k (gs.foldl (fun m g => g.foldl addRecord m) m)).isSome := by
  induction gs generalizing m with
  | nil => exact h
  | cons g t ih => exact ih _ (alGet_foldl_addRecord_mono g m k h)

theorem alGet_foldl_groups_mem (gs : List (List DbgRec)) (m : PyMap) (g : List DbgRec)
    (r : DbgRec) (hg : g ∈ gs) (hr : r ∈ g) :
    (alGet r.debuginfo.filename (gs.foldl (fun m g => g.foldl addRecord m) m)).isSome := by
  induction gs generalizing m with
  | nil => cases hg
  | cons x t ih =>
    rcases List.mem_cons.mp hg with h1 | h1
    · subst h1
      exact alGet_foldl_groups_mono t _ _ (alGet_foldl_addRecord_mem g m r hr)
    · exact ih _ h1

theorem mem_addToGroup_new (r : DbgRec) (gs : List (List DbgRec)) :
    ∃ g ∈ addToGroup r gs, r ∈ g := by
  induction gs with
  | nil => exact ⟨[r], by simp [addToGroup]⟩
  | cons g t ih =>
    unfold addToGroup
    split
    · exact ⟨g ++ [r], by simp⟩
    · rcases ih with ⟨g2, hg2, hr⟩
      exact ⟨g2, by simp [hg2], hr⟩

theorem mem_addToGroup_old (r x : DbgRec) (gs : List (List DbgRec))
    (h : ∃ g ∈ gs, x ∈ g) : ∃ g ∈ addToGroup r gs, x ∈ g := by
  induction gs with
  | nil => rcases h with ⟨g, hg, _⟩; cases hg
  | cons g t ih =>
    rcases h with ⟨g2, hg2, hx⟩
    rcases List.mem_cons.mp hg2 with h1 | h1
    · subst h1
      unfold addToGroup
      split
      · exact ⟨g2 ++ [r], by simp, by simp [hx]⟩
      · exact ⟨g2, by simp, hx⟩
    · unfold addToGroup
      split
      · exact ⟨g2, by simp [h1], hx⟩
      · rcases ih ⟨g2, h1, hx⟩ with ⟨g3, hg3, hx3⟩
        exact ⟨g3, by simp [hg3], hx3⟩

theorem mem_foldl_addToGroup (l : List DbgRec) (acc : List (List DbgRec)) (r : DbgRec)
    (h : (∃ g ∈ acc, r ∈ g) ∨ r ∈ l) :
    ∃ g ∈ l.foldl (fun acc r => addToGroup r acc) acc, r ∈ g := by
  induction l generalizing acc with
  | nil =>
    rcases h with h | h
    · exact h
    · cases h
  | cons x t ih =>
    rcases h with h | h
    · exact ih _ (Or.inl (mem_addToGroup_old x r acc h))
    · rcases List.mem_cons.mp h with h1 | h1
      · subst h1
        exact ih _ (Or.inl (mem_addToGroup_new r acc))
      · exact ih _ (Or.inr h1)

/-- `divide` loses no record: every debug-info record lands in some group. -/
theorem mem_divide (l : List DbgRec) (r : DbgRec) (h : r ∈ l) :
    ∃ g ∈ MapPython.divide l, r ∈ g := mem_foldl_addToGroup l [] r (Or.inr h)

/-- C9: when no temporary source-mapping record exists (`get_tmp` is `none`),
the mapping passes do not fail: `MapPython.mapper` still builds the
python-line mapping, equal to `create_mapping` on the debug info alone with no
provenance ranges, and every node carrying debug info still gets its source
file mapped; `create_cpp_map` returns without creating a C++ mapping. -/
theorem C9_missing_tmp_ok :
    (∀ (g : SMSdfg) (env : String → Option TmpInfo),
        MapPython.mapper g none env =
          MapPython.create_mapping (MapPython.divide (MapPython.sdfg_debuginfo g 0)) none) ∧
      (∀ (g : SMSdfg) (env : String → Option TmpInfo) (r : DbgRec),
          r ∈ MapPython.sdfg_debuginfo g 0 →
            (alGet r.debuginfo.filename (MapPython.mapper g none env)).isSome) ∧
      (∀ (code : List (List Char)) (name target cfg : String)
          (env : String → Option TmpInfo), env name = none →
            create_cpp_map code name target env cfg = none) := by
  refine ⟨fun g env => rfl, fun g env r hr => ?_, fun code name target cfg env henv => ?_⟩
  · rcases mem_divide _ r hr with ⟨grp, hg, hrg⟩
    exact alGet_foldl_groups_mem (MapPython.divide (MapPython.sdfg_debuginfo g 0)) [] grp r hg hrg
  · simp [create_cpp_map, henv]

/-- Witness for C9: with every `get_tmp` lookup absent, the python mapping of
`c9g` still contains its source file and the C++ pass creates nothing. -/
theorem C9_missing_tmp_ok_witness :
    (alGet "prog.py" (MapPython.mapper c9g none (fun _ => none))).isSome ∧
      create_cpp_map [] "prog" "cpu" (fun _ => none) "cfg" = none :=
  ⟨C9_missing_tmp_ok.2.1 c9g (fun _ => none) c9rec (by decide),
   C9_missing_tmp_ok.2.2 [] "prog" "cpu" "cfg" (fun _ => none) rfl⟩

end DaceSourcemap

namespace DaceNesting

open DaceSourcemap (alGet alSet alGet_alSet_self alGet_alSet_ne)

/-- C5 (counterexample): recomputing the Scenario B boundary memlet (internal
rank-1 `[0:1]`, external rank-2 `[0:10, 0:1]`) does not produce the subset
`[0:10, 0:1]` claimed (nor `[0:1, 0:1, 0:1]`): the special case suppresses the
unsqueeze and the recomputation never yields a successful memlet with either
subset. -/
theorem C5_counterexample :
    (modify_memlet scenarioB_internal scenarioB_external).toOption.map Memlet.subset ≠
        some [((0 : Int), 9, 1), ((0 : Int), 0, 1)] ∧
      (modify_memlet scenarioB_internal scenarioB_external).toOption.map Memlet.subset ≠
        some [((0 : Int), 0, 1), ((0 : Int), 0, 1), ((0 : Int), 0, 1)] := by
  constructor <;> decide

/-- C5 (amended): on Scenario B the special case of `_modify_memlet` drops the
size-1 inner dimension from the unsqueeze positions (`to_unsqueeze = ones[1:]`
is empty), so the internal subset is left at rank 1 un-unsqueezed; the
subsequent offset against the rank-2 external subset then violates the
equal-rank requirement of the subset algebra and the recomputation reports an
error instead of yielding `[0:10, 0:1]`. -/
theorem C5_amended :
    unsqueezePositions scenarioB_internal.subset (subsetSize scenarioB_external.subset) = [] ∧
      modify_memlet scenarioB_internal scenarioB_external =
        Except.error "offset: rank mismatch" :=
  ⟨by decide, by rfl⟩

theorem can_be_applied_loop_snd (g : State1) (es : List Edge) (proj : Edge → Option String)
    (seen : List (Option String)) :
    (InlineSDFG.can_be_applied_loop g es proj seen).2 = g := by
  induction es generalizing seen with
  | nil => rfl
  | cons e rest ih =>
    unfold InlineSDFG.can_be_applied_loop
    split
    · rfl
    · exact ih _

theorem can_be_applied_loop_fst (g : State1) (es : List Edge) (proj : Edge → Option String)
    (seen : List (Option String)) :
    (InlineSDFG.can_be_applied_loop g es proj seen).1 = true ↔
      (es.map proj).Nodup ∧ ∀ x ∈ es, proj x ∉ seen := by
  induction es generalizing seen with
  | nil => simp [InlineSDFG.can_be_applied_loop]
  | cons e rest ih =>
    unfold InlineSDFG.can_be_applied_loop
    split
    · rename_i hc
      simp only [List.elem_iff] at hc
      constructor
      · intro h; cases h
      · intro ⟨h1, h2⟩
        exact absurd hc (h2 e (by simp))
    · rename_i hc
      simp only [List.elem_iff] at hc
      rw [ih]
      constructor
      · intro ⟨h1, h2⟩
        refine ⟨?_, ?_⟩
        · simp only [List.map_cons, List.nodup_cons]
          refine ⟨?_, h1⟩
          intro hmem
          rcases List.mem_map.mp hmem with ⟨x, hx, hpx⟩
          exact absurd (by simp [hpx]) (h2 x hx)
        · intro x hx
          rcases List.mem_cons.mp hx with h | h
          · subst h; exact hc
          · intro hmem
            exact h2 x h (by simp [hmem])
      · intro ⟨h1, h2⟩
        simp only [List.map_cons, List.nodup_cons] at h1
        refine ⟨h1.2, ?_⟩
        intro x hx
        simp only [List.mem_cons, not_or]
        refine ⟨?_, ?_⟩
        · intro hpe
          exact h1.1 (by rw [← hpe]; exact List.mem_map_of_mem proj hx)
        · exact h2 x (by simp [hx])

theorem can_be_applied_run_snd (g : State1) (c : Nat) :
    (InlineSDFG.can_be_applied_run g c).2 = g := by
  unfold InlineSDFG.can_be_applied_run
  split
  · split
    · rfl
    · rcases h1 : InlineSDFG.can_be_applied_loop g (inEdges g.edges c) (fun e => e.dstConn) []
        with ⟨b, g1⟩
      have hg1 : g1 = g := by
        have := can_be_applied_loop_snd g (inEdges g.edges c) (fun e => e.dstConn) []
        rw [h1] at this
        exact this
      cases b
      · simp [h1, hg1]
      · simp only [h1]
        rw [hg1]
        exact can_be_applied_loop_snd g _ _ _
  · rfl

/-- C8: the feasibility checks of both transformations return a boolean and
leave their inputs unchanged (the graph threaded through
`InlineSDFG.can_be_applied` and the SDFG threaded through
`NestSDFG.can_be_applied` come back equal to what was passed in), and calling
either check again on the state it returned yields the same boolean. -/
theorem C8_feasible_pure :
    (∀ (g : State1) (c : Nat),
        (InlineSDFG.can_be_applied_run g c).2 = g ∧
          (InlineSDFG.can_be_applied_run (InlineSDFG.can_be_applied_run g c).2 c).1 =
            (InlineSDFG.can_be_applied_run g c).1) ∧
      ∀ (s : SDFG0),
        (NestSDFG.can_be_applied_run s).2 = s ∧
          (NestSDFG.can_be_applied_run (NestSDFG.can_be_applied_run s).2).1 =
            (NestSDFG.can_be_applied_run s).1 := by
  refine ⟨fun g c => ⟨can_be_applied_run_snd g c, ?_⟩, fun s => ⟨rfl, rfl⟩⟩
  rw [can_be_applied_run_snd g c]

/-- C3 (counterexample): on a graph whose `NestedSDFG` node declares a
boundary connector `in` bound to zero incoming edges, `can_be_applied` still
returns `true`, while the claimed predicate ("every boundary connector binds
to exactly one edge") is false. -/
theorem C3_counterexample :
    InlineSDFG.can_be_applied c3graph 0 = true ∧ claimedFeasible c3graph 0 = false := by
  decide

/-- C3 (amended): `InlineSDFG.can_be_applied` returns `true` iff the child
SDFG has exactly one state and no two incoming (resp. outgoing) boundary
edges of the node share a destination (resp. source) connector — i.e. every
connector binds to *at most* one edge; connectors bound to no edge are not
rejected. -/
theorem C3_amended (g : State1) (c : Nat) (child : SDFG0) (ins outs : List String)
    (h : alGet c g.nodes = some (Node1.nested child ins outs)) :
    InlineSDFG.can_be_applied g c = true ↔
      child.states.length = 1 ∧
        ((inEdges g.edges c).map (fun e => e.dstConn)).Nodup ∧
        ((outEdges g.edges c).map (fun e => e.srcConn)).Nodup := by
  unfold InlineSDFG.can_be_applied InlineSDFG.can_be_applied_run
  rw [h]
  by_cases hl : child.states.length = 1
  · simp only [hl, ne_eq, not_true_eq_false, if_false, ite_false]
    rcases h1 : InlineSDFG.can_be_applied_loop g (inEdges g.edges c) (fun e => e.dstConn) []
      with ⟨b, g1⟩
    have hg1 : g1 = g := by
      have := can_be_applied_loop_snd g (inEdges g.edges c) (fun e => e.dstConn) []
      rw [h1] at this
      exact this
    cases b
    · simp only
      constructor
      · intro hf; cases hf
      · intro ⟨_, h2, _⟩
        have := (can_be_applied_loop_fst g (inEdges g.edges c) (fun e => e.dstConn) []).mpr
          ⟨h2, by simp⟩
        rw [h1] at this
        cases this
    · simp only
      rw [hg1] at h1 ⊢
      have hin : ((inEdges g.edges c).map (fun e => e.dstConn)).Nodup := by
        have := (can_be_applied_loop_fst g (inEdges g.edges c) (fun e => e.dstConn) []).mp
          (by rw [h1])
        exact this.1
      rw [can_be_applied_loop_fst]
      simp [hl, hin]
  · simp [hl]

/-- Witness for the amended C3, instantiated at the counterexample graph. -/
theorem C3_amended_witness :
    InlineSDFG.can_be_applied c3graph 0 = true ↔
      c3child.states.length = 1 ∧
        ((inEdges c3graph.edges 0).map (fun e => e.dstConn)).Nodup ∧
        ((outEdges c3graph.edges 0).map (fun e => e.srcConn)).Nodup :=
  C3_amended c3graph 0 c3child ["in"] [] (by decide)

/-- C4: on Scenario A, `InlineSDFG.apply` produces exactly the state
`A -> Tasklet -> B` with memlet subset `[0:10]` on both edges; the
`NestedGraph` node (handle 2) and the child's boundary access nodes are gone
from the result. -/
theorem C4_scenarioA :
    InlineSDFG.apply c4parent 2 =
      Except.ok
        { arrays := [("A", { shape := [10], transient := false }),
                     ("B", { shape := [10], transient := false })],
          st := { nodes := [(1, .base (.access "A")), (3, .base (.access "B")),
                            (5, .base (.tasklet 0))],
                  edges := [{ eid := 2, src := 1, srcConn := none, dst := 5,
                              dstConn := some "x",
                              data := { data := "A", subset := [((0 : Int), 9, 1)] } },
                            { eid := 3, src := 5, srcConn := some "y", dst := 3,
                              dstConn := none,
                              data := { data := "B", subset := [((0 : Int), 9, 1)] } }] } } := by
  decide

/-- C2 (counterexample): in both unsupported configurations — internal rank
exceeding the external rank, and an external memlet with a secondary subset —
`InlineSDFG.apply` does report an error, but the parent it leaves behind is
*not* the unmodified input. -/
theorem C2_counterexample :
    (errInfo (InlineSDFG.apply c2parent 2)).isSome ∧
      (errInfo (InlineSDFG.apply c2parent 2)).map (fun q => q.2) ≠ some c2parent ∧
      (errInfo (InlineSDFG.apply c2bParent 2)).isSome ∧
      (errInfo (InlineSDFG.apply c2bParent 2)).map (fun q => q.2) ≠ some c2bParent := by
  refine ⟨by decide, by decide, by decide, by decide⟩

/-- C2 (amended): in the rank-exceeding configuration apply raises the
`ValueError` and in the secondary-subset configuration the
`NotImplementedError`, but by the time either error is raised the child's
transient has been added to the parent's array table (1 descriptor becomes 2)
and the child's non-boundary nodes and internal edge have been copied into
the parent state (2 nodes become 4, 1 edge becomes 2): the graph is left
modified. -/
theorem C2_amended :
    (errInfo (InlineSDFG.apply c2parent 2)).map
        (fun q => (q.1, q.2.arrays.length, q.2.st.nodes.length, q.2.st.edges.length)) =
      some ("ValueError: unexpected extra dimensions in internal memlet while inlining SDFG",
        2, 4, 2) ∧
      (errInfo (InlineSDFG.apply c2bParent 2)).map
          (fun q => (q.1, q.2.arrays.length, q.2.st.nodes.length, q.2.st.edges.length)) =
        some ("NotImplementedError", 2, 4, 2) ∧
      (c2parent.arrays.length, c2parent.st.nodes.length, c2parent.st.edges.length) = (1, 2, 1) ∧
      (c2bParent.arrays.length, c2bParent.st.nodes.length, c2bParent.st.edges.length) =
        (1, 2, 1) := by
  refine ⟨by decide, by decide, by decide, by decide⟩

/-- C1 (code bug): Outline on the failing input succeeds, but its
classification loop leaks the Python local `node_data_name` across
iterations, renaming the isolated access node `X` to the leftover `Y_in`: the
child state keeps no access node for `X` and holds two named `Y_in`.  Inline
on the produced `NestedGraph` node then raises `KeyError: Y_in` in its
sink-node loop, leaving the outlined (non-equivalent) graph in place — the
round trip produces no observably equivalent graph. -/
theorem C1_roundtrip_bug :
    c1out.isSome ∧
      (c1childStateOpt.map (fun s => s.nodes.countP (fun p => p.2 = Node0.access "X"))) =
        some 0 ∧
      (c1childStateOpt.map (fun s => s.nodes.countP (fun p => p.2 = Node0.access "Y_in"))) =
        some 2 ∧
      (c1inline.map (fun e => (errInfo e).map (fun q => q.1))) = some (some "KeyError: Y_in") ∧
      (c1inline.bind (fun e => (errInfo e).map (fun q => q.2))) =
        c1out.bind (fun r => r.states.head?.map (fun os =>
          ({ arrays := r.arrays, st := os } : Parent))) := by
  refine ⟨by decide, by decide, by decide, by decide, by decide⟩

theorem mem_alSet {α β : Type} [DecidableEq α] (k : α) (v : β) (m : List (α × β))
    (k' : α) (v' : β) (h : (k', v') ∈ alSet k v m) : (k' = k ∧ v' = v) ∨ (k', v') ∈ m := by
  induction m with
  | nil => simp [alSet] at h; exact Or.inl h
  | cons hd t ih =>
    rcases hd with ⟨k2, v2⟩
    unfold alSet at h
    split at h
    · rcases List.mem_cons.mp h with h1 | h1
      · cases h1
        exact Or.inl ⟨rfl, rfl⟩
      · exact Or.inr (List.mem_cons.mpr (Or.inr h1))
    · rcases List.mem_cons.mp h with h1 | h1
      · exact Or.inr (List.mem_cons.mpr (Or.inl h1))
      · rcases ih h1 with h2 | h2
        · exact Or.inl h2
        · exact Or.inr (List.mem_cons.mpr (Or.inr h2))

theorem alGet_isSome_alSet {α β : Type} [DecidableEq α] (x k : α) (v : β) (m : List (α × β)) :
    (alGet x (alSet k v m)).isSome ↔ (k = x ∨ (alGet x m).isSome) := by
  by_cases hk : k = x
  · subst hk
    rw [alGet_alSet_self]
    simp
  · rw [alGet_alSet_ne _ _ _ _ hk]
    simp [hk]

theorem alGet_mem_isSome {α β : Type} [DecidableEq α] (k : α) (v : β) (m : List (α × β))
    (h : (k, v) ∈ m) : (alGet k m).isSome := by
  induction m with
  | nil => cases h
  | cons hd t ih =>
    rcases hd with ⟨k2, v2⟩
    unfold alGet
    by_cases hk : k2 = k
    · simp [hk]
    · simp only [hk, if_false]
      rcases List.mem_cons.mp h with h1 | h1
      · cases h1; exact absurd rfl hk
      · exact ih h1

theorem nodupKeys_alSet {β : Type} (k : String) (v : β) (m : List (String × β))
    (h : NodupKeys m) : NodupKeys (alSet k v m) := by
  induction m with
  | nil => simp [alSet, NodupKeys]
  | cons hd t ih =>
    rcases hd with ⟨k2, v2⟩
    unfold NodupKeys at h ⊢
    unfold alSet
    split
    · rename_i hk
      subst hk
      simpa using h
    · rename_i hk
      simp only [List.map_cons, List.nodup_cons] at h ⊢
      refine ⟨?_, ih h.2⟩
      intro hmem
      rcases List.mem_map.mp hmem with ⟨⟨k3, v3⟩, hm3, hk3⟩
      rcases mem_alSet k v t k3 v3 hm3 with h2 | h2
      · exact hk (by rw [← hk3, h2.1])
      · exact h.1 (hk3 ▸ List.mem_map_of_mem _ h2)

theorem keyCount_zero_of_none {β : Type} (x : String) (m : List (String × β))
    (h : alGet x m = none) : m.countP (fun kv => kv.1 = x) = 0 := by
  induction m with
  | nil => rfl
  | cons hd t ih =>
    rcases hd with ⟨k2, v2⟩
    unfold alGet at h
    split at h
    · cases h
    · rename_i hk
      rw [List.countP_cons]
      simp only [decide_eq_true_eq]
      rw [ih h]
      simp [hk]

theorem keyCount_one_of_nodup {β : Type} (x : String) (m : List (String × β))
    (hn : NodupKeys m) (h : (alGet x m).isSome) : m.countP (fun kv => kv.1 = x) = 1 := by
  induction m with
  | nil => cases h
  | cons hd t ih =>
    rcases hd with ⟨k2, v2⟩
    unfold NodupKeys at hn
    simp only [List.map_cons, List.nodup_cons] at hn
    unfold alGet at h
    rw [List.countP_cons]
    simp only [decide_eq_true_eq]
    by_cases hk : k2 = x
    · subst hk
      have hz : alGet k2 t = none := by
        cases halt : alGet k2 t with
        | none => rfl
        | some w =>
          exfalso
          have : ∃ v', (k2, v') ∈ t := by
            clear hn ih h
            induction t with
            | nil => cases halt
            | cons hd2 t2 ih2 =>
              rcases hd2 with ⟨k3, v3⟩
              unfold alGet at halt
              split at halt
              · rename_i hk3; exact ⟨v3, by rw [hk3]; exact List.mem_cons_self _ _⟩
              · rcases ih2 halt with ⟨v', hv'⟩
                exact ⟨v', List.mem_cons.mpr (Or.inr hv')⟩
          rcases this with ⟨v', hv'⟩
          exact hn.1 (List.mem_map_of_mem (fun kv => kv.1) hv')
      rw [keyCount_zero_of_none _ _ hz]
      simp
    · simp only [hk, if_false] at h
      rw [ih hn.2 h]
      simp [hk]

theorem alGet_alRemove_ne {α β : Type} [DecidableEq α] (k k' : α) (m : List (α × β))
    (h : k' ≠ k) : alGet k (alRemove k' m) = alGet k m := by
  induction m with
  | nil => rfl
  | cons hd t ih =>
    rcases hd with ⟨k2, v2⟩
    unfold alRemove
    split
    · rename_i hk2
      subst hk2
      simp [alGet, h]
    · unfold alGet
      split
      · rfl
      · exact ih

theorem append_in_ne_out (X d : String) : d ++ "_in" ≠ X ++ "_out" := by
  intro h
  have := congrArg (fun s => s.data.reverse) h
  simp [String.data_append] at this

theorem append_out_ne_in (X d : String) : d ++ "_out" ≠ X ++ "_in" := fun h =>
  append_in_ne_out d X h.symm

theorem append_in_inj (X d : String) (h : d ++ "_in" = X ++ "_in") : d = X := by
  have := congrArg (fun s => s.data.reverse) h
  simp [String.data_append] at this
  apply String.ext
  have h2 := congrArg List.reverse this
  simpa using h2

theorem append_out_inj (X d : String) (h : d ++ "_out" = X ++ "_out") : d = X := by
  have := congrArg (fun s => s.data.reverse) h
  simp [String.data_append] at this
  apply String.ext
  have h2 := congrArg List.reverse this
  simpa using h2

theorem inputStep_inv (X : String) (descX : ArrayDesc) (d : String) (desc : ArrayDesc)
    (acc : NestAcc)
    (hnc : ∀ e : String, e ++ "_in" ≠ X ∧ e ++ "_out" ≠ X)
    (hnd : d ≠ X ++ "_in" ∧ d ≠ X ++ "_out")
    (hinv : C6Inv X descX acc) :
    C6Inv X descX (NestSDFG.inputStep d desc acc) ∧
      ((alGet X (NestSDFG.inputStep d desc acc).inputs).isSome ↔
        (d = X ∨ (alGet X acc.inputs).isSome)) ∧
      (NestSDFG.inputStep d desc acc).outputs = acc.outputs ∧
      (NestSDFG.inputStep d desc acc).transients = acc.transients := by
  unfold NestSDFG.inputStep
  cases h0 : alGet d acc.inputs with
  | none =>
    refine ⟨⟨?_, ?_, ?_, ?_, ?_, ?_, ?_, ?_, ?_, ?_⟩, ?_, rfl, rfl⟩
    · rw [alGet_alSet_ne _ _ _ _ (hnc d).1]
      exact hinv.harr
    · exact nodupKeys_alSet _ _ _ hinv.hin_nodup
    · exact hinv.hout_nodup
    · exact nodupKeys_alSet _ _ _ hinv.houter_nodup
    · rw [alGet_isSome_alSet, alGet_isSome_alSet]
      have := hinv.houter
      tauto
    · intro hs
      rw [alGet_isSome_alSet] at hs
      rcases hs with hdx | hs
      · subst hdx
        rw [alGet_isSome_alSet]
        exact Or.inl rfl
      · rw [alGet_isSome_alSet]
        exact Or.inr (hinv.hxin hs)
    · intro hs
      rw [alGet_isSome_alSet]
      exact Or.inr (hinv.hxout hs)
    · intro k v hkv
      rcases mem_alSet _ _ _ _ _ hkv with h1 | h1
      · rw [h1.1]; exact hnd
      · exact hinv.hkeys_in k v h1
    · exact hinv.hkeys_out
    · exact hinv.htrans
    · rw [alGet_isSome_alSet]
  | some w =>
    have hs : (alGet d acc.inputs).isSome := by rw [h0]; rfl
    refine ⟨hinv, ?_, rfl, rfl⟩
    constructor
    · intro h; exact Or.inr h
    · intro h
      rcases h with h | h
      · subst h; exact hs
      · exact h

theorem outputStep_inv (X : String) (descX : ArrayDesc) (d : String) (desc : ArrayDesc)
    (acc : NestAcc)
    (hnc : ∀ e : String, e ++ "_in" ≠ X ∧ e ++ "_out" ≠ X)
    (hnd : d ≠ X ++ "_in" ∧ d ≠ X ++ "_out")
    (hinv : C6Inv X descX acc) :
    C6Inv X descX (NestSDFG.outputStep d desc acc) ∧
      ((alGet X (NestSDFG.outputStep d desc acc).outputs).isSome ↔
        (d = X ∨ (alGet X acc.outputs).isSome)) ∧
      (NestSDFG.outputStep d desc acc).inputs = acc.inputs ∧
      (NestSDFG.outputStep d desc acc).transients = acc.transients := by
  unfold NestSDFG.outputStep
  cases h0 : alGet d acc.outputs with
  | none =>
    refine ⟨⟨?_, ?_, ?_, ?_, ?_, ?_, ?_, ?_, ?_, ?_⟩, ?_, rfl, rfl⟩
    · rw [alGet_alSet_ne _ _ _ _ (hnc d).2]
      exact hinv.harr
    · exact hinv.hin_nodup
    · exact nodupKeys_alSet _ _ _ hinv.hout_nodup
    · cases h1 : alGet d acc.inputs with
      | none => exact nodupKeys_alSet _ _ _ hinv.houter_nodup
      | some _ => exact hinv.houter_nodup
    · cases h1 : alGet d acc.inputs with
      | none =>
        rw [alGet_isSome_alSet, alGet_isSome_alSet]
        have := hinv.houter
        tauto
      | some w =>
        rw [alGet_isSome_alSet]
        have := hinv.houter
        by_cases hdx : d = X
        · subst hdx
          have hin : (alGet d acc.inputs).isSome := by rw [h1]; rfl
          tauto
        · tauto
    · intro hs
      rw [alGet_isSome_alSet]
      exact Or.inr (hinv.hxin hs)
    · intro hs
      rw [alGet_isSome_alSet] at hs
      rcases hs with hdx | hs
      · subst hdx
        rw [alGet_isSome_alSet]
        exact Or.inl rfl
      · rw [alGet_isSome_alSet]
        exact Or.inr (hinv.hxout hs)
    · exact hinv.hkeys_in
    · intro k v hkv
      rcases mem_alSet _ _ _ _ _ hkv with h1 | h1
      · rw [h1.1]; exact hnd
      · exact hinv.hkeys_out k v h1
    · exact hinv.htrans
    · rw [alGet_isSome_alSet]
  | some w =>
    have hs : (alGet d acc.outputs).isSome := by rw [h0]; rfl
    refine ⟨hinv, ?_, rfl, rfl⟩
    constructor
    · intro h; exact Or.inr h
    · intro h
      rcases h with h | h
      · subst h; exact hs
      · exact h

theorem classifyNode_inv (X : String) (descX : ArrayDesc) (htr : descX.transient = false)
    (st : State0) (acc acc2 : NestAcc) (p p2 : Nat × Node0)
    (hnc : ∀ e : String, e ++ "_in" ≠ X ∧ e ++ "_out" ≠ X)
    (hnd : ∀ d, p.2 = Node0.access d → d ≠ X ++ "_in" ∧ d ≠ X ++ "_out")
    (hinv : C6Inv X descX acc)
    (h : NestSDFG.classifyNode st acc p = .ok (acc2, p2)) :
    C6Inv X descX acc2 ∧
      ((alGet X acc2.inputs).isSome ↔
        ((alGet X acc.inputs).isSome ∨
          (p.2 = Node0.access X ∧ (outEdges st.edges p.1).length > 0))) ∧
      ((alGet X acc2.outputs).isSome ↔
        ((alGet X acc.outputs).isSome ∨
          (p.2 = Node0.access X ∧ (inEdges st.edges p.1).length > 0))) := by
  obtain ⟨i, nd⟩ := p
  cases nd with
  | access d =>
    have hnd2 := hnd d rfl
    unfold NestSDFG.classifyNode at h
    dsimp only at h ⊢
    cases h1 : alGet d acc.nested_arrays with
    | none =>
      rw [h1] at h
      cases h
    | some desc =>
      rw [h1] at h
      dsimp only at h
      by_cases htr2 : desc.transient = true
      · rw [if_pos htr2] at h
        have hdX : d ≠ X := by
          intro hdx
          subst hdx
          rw [hinv.harr] at h1
          cases h1
          rw [htr] at htr2
          cases htr2
        cases h
        refine ⟨hinv, ?_, ?_⟩
        · constructor
          · exact Or.inl
          · intro hcase
            rcases hcase with hcase | hcase
            · exact hcase
            · exact absurd (by simpa using hcase.1) hdX
        · constructor
          · exact Or.inl
          · intro hcase
            rcases hcase with hcase | hcase
            · exact hcase
            · exact absurd (by simpa using hcase.1) hdX
      · rw [if_neg htr2] at h
        by_cases hout : (outEdges st.edges i).length > 0 <;>
          by_cases hin : (inEdges st.edges i).length > 0
        · rw [if_pos hout, if_pos hin] at h
          dsimp only at h
          cases h
          obtain ⟨inv1, iff1, outeq1, treq1⟩ := inputStep_inv X descX d desc acc hnc hnd2 hinv
          have inv1' : C6Inv X descX
              { NestSDFG.inputStep d desc acc with node_data_name := some (d ++ "_in") } :=
            ⟨inv1.harr, inv1.hin_nodup, inv1.hout_nodup, inv1.houter_nodup, inv1.houter,
             inv1.hxin, inv1.hxout, inv1.hkeys_in, inv1.hkeys_out, inv1.htrans⟩
          obtain ⟨inv2, iff2, ineq2, treq2⟩ :=
            outputStep_inv X descX d desc
              { NestSDFG.inputStep d desc acc with node_data_name := some (d ++ "_in") }
              hnc hnd2 inv1'
          refine ⟨⟨inv2.harr, inv2.hin_nodup, inv2.hout_nodup, inv2.houter_nodup, inv2.houter,
            inv2.hxin, inv2.hxout, inv2.hkeys_in, inv2.hkeys_out, inv2.htrans⟩, ?_, ?_⟩
          · dsimp only
            rw [ineq2]
            rw [show ({ NestSDFG.inputStep d desc acc with
                node_data_name := some (d ++ "_in") } : NestAcc).inputs =
                (NestSDFG.inputStep d desc acc).inputs from rfl]
            rw [iff1]
            simp only [Node0.access.injEq]
            constructor
            · intro hc
              rcases hc with hc | hc
              · exact Or.inr ⟨hc, hout⟩
              · exact Or.inl hc
            · intro hc
              rcases hc with hc | hc
              · exact Or.inr hc
              · exact Or.inl hc.1
          · dsimp only
            rw [iff2]
            rw [show ({ NestSDFG.inputStep d desc acc with
                node_data_name := some (d ++ "_in") } : NestAcc).outputs =
                (NestSDFG.inputStep d desc acc).outputs from rfl]
            rw [outeq1]
            simp only [Node0.access.injEq]
            constructor
            · intro hc
              rcases hc with hc | hc
              · exact Or.inr ⟨hc, hin⟩
              · exact Or.inl hc
            · intro hc
              rcases hc with hc | hc
              · exact Or.inr hc
              · exact Or.inl hc.1
        · rw [if_pos hout, if_neg hin] at h
          dsimp only at h
          cases h
          obtain ⟨inv1, iff1, outeq1, treq1⟩ := inputStep_inv X descX d desc acc hnc hnd2 hinv
          refine ⟨⟨inv1.harr, inv1.hin_nodup, inv1.hout_nodup, inv1.houter_nodup, inv1.houter,
            inv1.hxin, inv1.hxout, inv1.hkeys_in, inv1.hkeys_out, inv1.htrans⟩, ?_, ?_⟩
          · dsimp only
            rw [iff1]
            simp only [Node0.access.injEq]
            constructor
            · intro hc
              rcases hc with hc | hc
              · exact Or.inr ⟨hc, hout⟩
              · exact Or.inl hc
            · intro hc
              rcases hc with hc | hc
              · exact Or.inr hc
              · exact Or.inl hc.1
          · dsimp only
            rw [outeq1]
            simp only [Node0.access.injEq]
            constructor
            · exact Or.inl
            · intro hc
              rcases hc with hc | hc
              · exact hc
              · exact absurd hc.2 hin
        · rw [if_neg hout, if_pos hin] at h
          dsimp only at h
          cases h
          obtain ⟨inv2, iff2, ineq2, treq2⟩ := outputStep_inv X descX d desc acc hnc hnd2 hinv
          refine ⟨⟨inv2.harr, inv2.hin_nodup, inv2.hout_nodup, inv2.houter_nodup, inv2.houter,
            inv2.hxin, inv2.hxout, inv2.hkeys_in, inv2.hkeys_out, inv2.htrans⟩, ?_, ?_⟩
          · dsimp only
            rw [ineq2]
            simp only [Node0.access.injEq]
            constructor
            · exact Or.inl
            · intro hc
              rcases hc with hc | hc
              · exact hc
              · exact absurd hc.2 hout
          · dsimp only
            rw [iff2]
            simp only [Node0.access.injEq]
            constructor
            · intro hc
              rcases hc with hc | hc
              · exact Or.inr ⟨hc, hin⟩
              · exact Or.inl hc
            · intro hc
              rcases hc with hc | hc
              · exact Or.inr hc
              · exact Or.inl hc.1
        · rw [if_neg hout, if_neg hin] at h
          cases hn : acc.node_data_name with
          | none =>
            rw [hn] at h
            cases h
          | some nm =>
            rw [hn] at h
            dsimp only at h
            cases h
            refine ⟨hinv, ?_, ?_⟩
            · constructor
              · exact Or.inl
              · intro hc
                rcases hc with hc | hc
                · exact hc
                · exact absurd hc.2 hout
            · constructor
              · exact Or.inl
              · intro hc
                rcases hc with hc | hc
                · exact hc
                · exact absurd hc.2 hin
  | tasklet t =>
    unfold NestSDFG.classifyNode at h
    dsimp only at h ⊢
    cases h
    exact ⟨hinv, by simp, by simp⟩
  | mapEntry m =>
    unfold NestSDFG.classifyNode at h
    dsimp only at h ⊢
    cases h
    exact ⟨hinv, by simp, by simp⟩
  | mapExit m =>
    unfold NestSDFG.classifyNode at h
    dsimp only at h ⊢
    cases h
    exact ⟨hinv, by simp, by simp⟩

theorem except_bind_ok {ε α β : Type} (e : Except ε α) (k : α → Except ε β) (b : β)
    (h : (e >>= k) = .ok b) : ∃ a, e = .ok a ∧ k a = .ok b := by
  cases e with
  | error f =>
    exact absurd h (by simp [Bind.bind, Except.bind])
  | ok a => exact ⟨a, rfl, h⟩

theorem classifyFold_inv (X : String) (descX : ArrayDesc) (htr : descX.transient = false)
    (st : State0)
    (hnc : ∀ e : String, e ++ "_in" ≠ X ∧ e ++ "_out" ≠ X)
    (l : List (Nat × Node0)) :
    ∀ (acc : NestAcc) (ns : List (Nat × Node0)) (res : NestAcc × List (Nat × Node0)),
      (∀ i d, (i, Node0.access d) ∈ l → d ≠ X ++ "_in" ∧ d ≠ X ++ "_out") →
      C6Inv X descX acc →
      l.foldlM
          (fun (q : NestAcc × List (Nat × Node0)) p => do
            let (a2, p2) ← NestSDFG.classifyNode st q.1 p
            pure (a2, q.2 ++ [p2])) (acc, ns) = .ok res →
      C6Inv X descX res.1 ∧
        ((alGet X res.1.inputs).isSome ↔
          ((alGet X acc.inputs).isSome ∨
            ∃ i, (i, Node0.access X) ∈ l ∧ (outEdges st.edges i).length > 0)) ∧
        ((alGet X res.1.outputs).isSome ↔
          ((alGet X acc.outputs).isSome ∨
            ∃ i, (i, Node0.access X) ∈ l ∧ (inEdges st.edges i).length > 0)) := by
  induction l with
  | nil =>
    intro acc ns res hnd hinv h
    simp only [List.foldlM_nil] at h
    cases h
    refine ⟨hinv, by simp, by simp⟩
  | cons p t ih =>
    intro acc ns res hnd hinv h
    rw [List.foldlM_cons] at h
    rcases except_bind_ok _ _ _ h with ⟨x, hx, hrest⟩
    rcases except_bind_ok _ _ _ hx with ⟨⟨a2, p2⟩, hcn, hpure⟩
    cases hpure
    obtain ⟨inv2, iff_in, iff_out⟩ :=
      classifyNode_inv X descX htr st acc a2 p p2 hnc
        (fun d hd => hnd p.1 d (by rcases p with ⟨i, nd⟩; cases hd; simp)) hinv hcn
    obtain ⟨inv3, iff_in3, iff_out3⟩ :=
      ih a2 (ns ++ [p2]) res (fun i d hid => hnd i d (List.mem_cons.mpr (Or.inr hid))) inv2 hrest
    refine ⟨inv3, ?_, ?_⟩
    · rw [iff_in3, iff_in]
      constructor
      · intro hc
        rcases hc with (hc | hc) | hc
        · exact Or.inl hc
        · refine Or.inr ⟨p.1, ?_, hc.2⟩
          rw [List.mem_cons]
          left
          rcases p with ⟨i, nd⟩
          dsimp only at hc ⊢
          rw [hc.1]
        · rcases hc with ⟨i, hi, hdeg⟩
          exact Or.inr ⟨i, List.mem_cons.mpr (Or.inr hi), hdeg⟩
      · intro hc
        rcases hc with hc | ⟨i, hi, hdeg⟩
        · exact Or.inl (Or.inl hc)
        · rcases List.mem_cons.mp hi with hi | hi
          · refine Or.inl (Or.inr ⟨?_, ?_⟩)
            · rw [← hi]
            · rw [show i = p.1 from by rw [← hi]] at hdeg
              exact hdeg
          · exact Or.inr ⟨i, hi, hdeg⟩
    · rw [iff_out3, iff_out]
      constructor
      · intro hc
        rcases hc with (hc | hc) | hc
        · exact Or.inl hc
        · refine Or.inr ⟨p.1, ?_, hc.2⟩
          rw [List.mem_cons]
          left
          rcases p with ⟨i, nd⟩
          dsimp only at hc ⊢
          rw [hc.1]
        · rcases hc with ⟨i, hi, hdeg⟩
          exact Or.inr ⟨i, List.mem_cons.mpr (Or.inr hi), hdeg⟩
      · intro hc
        rcases hc with hc | ⟨i, hi, hdeg⟩
        · exact Or.inl (Or.inl hc)
        · rcases List.mem_cons.mp hi with hi | hi
          · refine Or.inl (Or.inr ⟨?_, ?_⟩)
            · rw [← hi]
            · rw [show i = p.1 from by rw [← hi]] at hdeg
              exact hdeg
          · exact Or.inr ⟨i, hi, hdeg⟩

theorem classifyState_inv (X : String) (descX : ArrayDesc) (htr : descX.transient = false)
    (st : State0) (acc acc2 : NestAcc) (st2 : State0)
    (hnc : ∀ e : String, e ++ "_in" ≠ X ∧ e ++ "_out" ≠ X)
    (hnd : ∀ i d, (i, Node0.access d) ∈ st.nodes → d ≠ X ++ "_in" ∧ d ≠ X ++ "_out")
    (hinv : C6Inv X descX acc)
    (h : NestSDFG.classifyState false acc st = .ok (acc2, st2)) :
    C6Inv X descX acc2 ∧
      ((alGet X acc2.inputs).isSome ↔
        ((alGet X acc.inputs).isSome ∨
          ∃ i, (i, Node0.access X) ∈ st.nodes ∧ (outEdges st.edges i).length > 0)) ∧
      ((alGet X acc2.outputs).isSome ↔
        ((alGet X acc.outputs).isSome ∨
          ∃ i, (i, Node0.access X) ∈ st.nodes ∧ (inEdges st.edges i).length > 0)) := by
  unfold NestSDFG.classifyState at h
  rcases except_bind_ok _ _ _ h with ⟨⟨a, nodes⟩, hfold, hrest⟩
  simp only [Bool.false_eq_true, if_false, ite_false, pure, Except.pure, Except.ok.injEq,
    Prod.mk.injEq] at hrest
  obtain ⟨h1, h2⟩ := hrest
  subst h1
  have := classifyFold_inv X descX htr st hnc st.nodes acc [] _ hnd hinv hfold
  exact this

theorem popFoldM_preserve (k : String) (l : List (String × String)) :
    ∀ (m m2 : List (String × ArrayDesc)),
      (∀ a b, (a, b) ∈ l → a ≠ k) →
      (l.foldlM
          (fun (m : List (String × ArrayDesc)) kv =>
            match alGet kv.1 m with
            | some _ => pure (alRemove kv.1 m)
            | none => throw ("KeyError: " ++ kv.1)) m :
          Except String (List (String × ArrayDesc))) = .ok m2 →
      alGet k m2 = alGet k m := by
  induction l with
  | nil =>
    intro m m2 hk h
    simp only [List.foldlM_nil] at h
    cases h
    rfl
  | cons kv t ih =>
    intro m m2 hk h
    rw [List.foldlM_cons] at h
    rcases except_bind_ok _ _ _ h with ⟨x, hx, hrest⟩
    cases h1 : alGet kv.1 m with
    | none => rw [h1] at hx; cases hx
    | some w =>
      rw [h1] at hx
      cases hx
      rw [ih _ _ (fun a b hab => hk a b (List.mem_cons.mpr (Or.inr hab))) hrest]
      exact alGet_alRemove_ne _ _ _ (hk kv.1 kv.2 (List.mem_cons.mpr (Or.inl rfl)))

theorem popFoldl_preserve (k : String) (l : List (String × String)) :
    ∀ (m : List (String × ArrayDesc)),
      (∀ a b, (a, b) ∈ l → a ≠ k) →
      alGet k (l.foldl (fun m kv => alRemove kv.1 m) m) = alGet k m := by
  induction l with
  | nil => intro m _; rfl
  | cons kv t ih =>
    intro m hk
    rw [List.foldl_cons]
    rw [ih _ (fun a b hab => hk a b (List.mem_cons.mpr (Or.inr hab)))]
    exact alGet_alRemove_ne _ _ _ (hk kv.1 kv.2 (List.mem_cons.mpr (Or.inl rfl)))

theorem countP_enumFrom {α : Type} (pred : α → Bool) (l : List α) :
    ∀ n, (l.enumFrom n).countP (fun p => pred p.2) = l.countP pred := by
  induction l with
  | nil => intro n; rfl
  | cons x t ih =>
    intro n
    simp only [List.enumFrom, List.countP_cons]
    rw [ih (n + 1)]

theorem countP_enum {α : Type} (pred : α → Bool) (l : List α) :
    (l.enum).countP (fun p => pred p.2) = l.countP pred :=
  countP_enumFrom pred l 0

theorem inBoundary_count (X : String) (outer : List (String × ArrayDesc))
    (l : List (Nat × (String × String))) :
    ∀ (init res : List Edge),
      (l.foldlM
          (fun (el : List Edge) (p : Nat × (String × String)) =>
            match alGet p.2.1 outer with
            | some d =>
              pure (el ++ [{ eid := p.1, src := 1 + p.1, srcConn := none, dst := 0,
                             dstConn := some p.2.2, data := Memlet.from_array p.2.1 d : Edge }])
            | none => throw ("KeyError: " ++ p.2.1)) init :
          Except String (List Edge)) = .ok res →
      res.countP (fun e => decide (e.dst = 0 ∧ e.data.data = X)) =
          init.countP (fun e => decide (e.dst = 0 ∧ e.data.data = X)) +
            l.countP (fun p => decide (p.2.1 = X)) ∧
        res.countP (fun e => decide (e.src = 0 ∧ e.data.data = X)) =
          init.countP (fun e => decide (e.src = 0 ∧ e.data.data = X)) := by
  induction l with
  | nil =>
    intro init res h
    simp only [List.foldlM_nil] at h
    cases h
    simp
  | cons p t ih =>
    intro init res h
    rw [List.foldlM_cons] at h
    cases h1 : alGet p.2.1 outer with
    | none => rw [h1] at h; exact absurd h (by simp [Bind.bind, Except.bind, throw, throwThe, MonadExceptOf.throw])
    | some d =>
      rw [h1] at h
      rcases except_bind_ok _ _ _ h with ⟨x, hx, hrest⟩
      cases hx
      obtain ⟨ih1, ih2⟩ := ih _ _ hrest
      constructor
      · rw [ih1]
        rw [List.countP_append, List.countP_cons]
        simp only [List.countP_nil, List.countP_cons, Memlet.from_array]
        by_cases hpx : p.2.1 = X
        · simp [hpx]
          omega
        · simp [hpx]
      · rw [ih2]
        rw [List.countP_append]
        simp [Memlet.from_array, Nat.add_comm]

theorem outBoundary_count (X : String) (outer : List (String × ArrayDesc)) (nIn : Nat)
    (l : List (Nat × (String × String))) :
    ∀ (init res : List Edge),
      (l.foldlM
          (fun (el : List Edge) (p : Nat × (String × String)) =>
            match alGet p.2.1 outer with
            | some d =>
              pure (el ++ [{ eid := nIn + p.1, src := 0, srcConn := some p.2.2,
                             dst := 1 + nIn + p.1, dstConn := none,
                             data := Memlet.from_array p.2.1 d : Edge }])
            | none => throw ("KeyError: " ++ p.2.1)) init :
          Except String (List Edge)) = .ok res →
      res.countP (fun e => decide (e.src = 0 ∧ e.data.data = X)) =
          init.countP (fun e => decide (e.src = 0 ∧ e.data.data = X)) +
            l.countP (fun p => decide (p.2.1 = X)) ∧
        res.countP (fun e => decide (e.dst = 0 ∧ e.data.data = X)) =
          init.countP (fun e => decide (e.dst = 0 ∧ e.data.data = X)) := by
  induction l with
  | nil =>
    intro init res h
    simp only [List.foldlM_nil] at h
    cases h
    simp
  | cons p t ih =>
    intro init res h
    rw [List.foldlM_cons] at h
    cases h1 : alGet p.2.1 outer with
    | none => rw [h1] at h; exact absurd h (by simp [Bind.bind, Except.bind, throw, throwThe, MonadExceptOf.throw])
    | some d =>
      rw [h1] at h
      rcases except_bind_ok _ _ _ h with ⟨x, hx, hrest⟩
      cases hx
      obtain ⟨ih1, ih2⟩ := ih _ _ hrest
      constructor
      · rw [ih1]
        rw [List.countP_append, List.countP_cons]
        simp only [List.countP_nil, List.countP_cons, Memlet.from_array]
        by_cases hpx : p.2.1 = X
        · simp [hpx]
          omega
        · simp [hpx]
      · rw [ih2]
        rw [List.countP_append]
        simp [Memlet.from_array, Nat.add_comm]

theorem statesFold_inv (X : String) (descX : ArrayDesc) (htr : descX.transient = false)
    (hnc : ∀ e : String, e ++ "_in" ≠ X ∧ e ++ "_out" ≠ X)
    (l : List State0) :
    ∀ (acc : NestAcc) (ns : List State0) (res : NestAcc × List State0),
      (∀ st ∈ l, ∀ i d, (i, Node0.access d) ∈ st.nodes → d ≠ X ++ "_in" ∧ d ≠ X ++ "_out") →
      C6Inv X descX acc →
      l.foldlM
          (fun (q : NestAcc × List State0) st => do
            let (a2, st2) ← NestSDFG.classifyState false q.1 st
            pure (a2, q.2 ++ [st2])) (acc, ns) = .ok res →
      C6Inv X descX res.1 ∧
        ((alGet X res.1.inputs).isSome ↔
          ((alGet X acc.inputs).isSome ∨
            ∃ st ∈ l, ∃ i, (i, Node0.access X) ∈ st.nodes ∧ (outEdges st.edges i).length > 0)) ∧
        ((alGet X res.1.outputs).isSome ↔
          ((alGet X acc.outputs).isSome ∨
            ∃ st ∈ l, ∃ i, (i, Node0.access X) ∈ st.nodes ∧ (inEdges st.edges i).length > 0)) := by
  induction l with
  | nil =>
    intro acc ns res hnd hinv h
    simp only [List.foldlM_nil] at h
    cases h
    refine ⟨hinv, by simp, by simp⟩
  | cons st t ih =>
    intro acc ns res hnd hinv h
    rw [List.foldlM_cons] at h
    rcases except_bind_ok _ _ _ h with ⟨x, hx, hrest⟩
    rcases except_bind_ok _ _ _ hx with ⟨⟨a2, st2⟩, hcs, hpure⟩
    cases hpure
    obtain ⟨inv2, iff_in, iff_out⟩ :=
      classifyState_inv X descX htr st acc a2 st2 hnc
        (hnd st (List.mem_cons_self st t)) hinv hcs
    obtain ⟨inv3, iff_in3, iff_out3⟩ :=
      ih a2 (ns ++ [st2]) res (fun s hs => hnd s (List.mem_cons.mpr (Or.inr hs))) inv2 hrest
    refine ⟨inv3, ?_, ?_⟩
    · rw [iff_in3, iff_in]
      constructor
      · intro hc
        rcases hc with (hc | hc) | hc
        · exact Or.inl hc
        · exact Or.inr ⟨st, List.mem_cons_self st t, hc⟩
        · rcases hc with ⟨s, hs, hrest2⟩
          exact Or.inr ⟨s, List.mem_cons.mpr (Or.inr hs), hrest2⟩
      · intro hc
        rcases hc with hc | ⟨s, hs, hrest2⟩
        · exact Or.inl (Or.inl hc)
        · rcases List.mem_cons.mp hs with hs | hs
          · subst hs
            exact Or.inl (Or.inr hrest2)
          · exact Or.inr ⟨s, hs, hrest2⟩
    · rw [iff_out3, iff_out]
      constructor
      · intro hc
        rcases hc with (hc | hc) | hc
        · exact Or.inl hc
        · exact Or.inr ⟨st, List.mem_cons_self st t, hc⟩
        · rcases hc with ⟨s, hs, hrest2⟩
          exact Or.inr ⟨s, List.mem_cons.mpr (Or.inr hs), hrest2⟩
      · intro hc
        rcases hc with hc | ⟨s, hs, hrest2⟩
        · exact Or.inl (Or.inl hc)
        · rcases List.mem_cons.mp hs with hs | hs
          · subst hs
            exact Or.inl (Or.inr hrest2)
          · exact Or.inr ⟨s, hs, hrest2⟩

theorem C6_read_write_classification (sdfg : SDFG0) (s1 s2 : State0) (X : String)
    (descX : ArrayDesc) (r : SDFG1)
    (hstates : sdfg.states = [s1, s2])
    (hX : alGet X sdfg.arrays = some descX)
    (htr : descX.transient = false)
    (hnc : ∀ d : String, d ++ "_in" ≠ X ∧ d ++ "_out" ≠ X)
    (hnd1 : ∀ i d, (i, Node0.access d) ∈ s1.nodes → d ≠ X ++ "_in" ∧ d ≠ X ++ "_out")
    (hnd2 : ∀ i d, (i, Node0.access d) ∈ s2.nodes → d ≠ X ++ "_in" ∧ d ≠ X ++ "_out")
    (hread : ∃ i, (i, Node0.access X) ∈ s1.nodes ∧ (outEdges s1.edges i).length > 0)
    (hwrite : ∃ j, (j, Node0.access X) ∈ s2.nodes ∧ (inEdges s2.edges j).length > 0)
    (hok : NestSDFG.apply sdfg false = Except.ok r) :
    r.arrays.countP (fun kv => kv.1 = X) = 1 ∧
      ∃ os ch ins outs,
        r.states = [os] ∧
          alGet 0 os.nodes = some (Node1.nested ch ins outs) ∧
          (alGet (X ++ "_in") ch.arrays).isSome ∧
          (alGet (X ++ "_out") ch.arrays).isSome ∧
          os.edges.countP (fun e => e.dst = 0 ∧ e.data.data = X) = 1 ∧
          os.edges.countP (fun e => e.src = 0 ∧ e.data.data = X) = 1 := by
  unfold NestSDFG.apply at hok
  rcases except_bind_ok _ _ _ hok with ⟨⟨acc, statesL⟩, hfold, hok⟩
  rcases except_bind_ok _ _ _ hok with ⟨na1, hpop1, hok⟩
  rcases except_bind_ok _ _ _ hok with ⟨na2, hpop2, hok⟩
  rcases except_bind_ok _ _ _ hok with ⟨inB, hinB, hok⟩
  rcases except_bind_ok _ _ _ hok with ⟨outB, houtB, hok⟩
  have hinv0 : C6Inv X descX
      { inputs := [], outputs := [], transients := [], nested_arrays := sdfg.arrays,
        outer_arrays := [], node_data_name := none } := by
    refine ⟨hX, ?_, ?_, ?_, ?_, ?_, ?_, ?_, ?_, rfl⟩
    · simp [NodupKeys]
    · simp [NodupKeys]
    · simp [NodupKeys]
    · constructor
      · intro h
        simp [alGet] at h
      · intro h
        rcases h with h | h <;> simp [alGet] at h
    · intro h
      simp [alGet] at h
    · intro h
      simp [alGet] at h
    · intro k v h
      simp at h
    · intro k v h
      simp at h
  rw [hstates] at hfold
  obtain ⟨inv2, iffin2, iffout2⟩ :=
    statesFold_inv X descX htr hnc [s1, s2] _ [] (acc, statesL)
      (by
        intro st hst
        rcases List.mem_cons.mp hst with h | h
        · subst h; exact hnd1
        · rcases List.mem_cons.mp h with h | h
          · subst h; exact hnd2
          · cases h)
      hinv0 hfold
  have hinX : (alGet X acc.inputs).isSome := by
    refine iffin2.mpr (Or.inr ⟨s1, List.mem_cons_self s1 [s2], ?_⟩)
    exact hread
  have houtX : (alGet X acc.outputs).isSome := by
    refine iffout2.mpr (Or.inr ⟨s2, List.mem_cons.mpr (Or.inr (List.mem_cons_self s2 [])), ?_⟩)
    exact hwrite
  have hXin1 : alGet (X ++ "_in") na1 = alGet (X ++ "_in") acc.nested_arrays :=
    popFoldM_preserve (X ++ "_in") acc.inputs acc.nested_arrays na1
      (fun a b hab => (inv2.hkeys_in a b hab).1) hpop1
  have hXout1 : alGet (X ++ "_out") na1 = alGet (X ++ "_out") acc.nested_arrays :=
    popFoldM_preserve (X ++ "_out") acc.inputs acc.nested_arrays na1
      (fun a b hab => (inv2.hkeys_in a b hab).2) hpop1
  have htrans2 : acc.transients = [] := inv2.htrans
  try rw [htrans2] at hpop2
  try rw [htrans2] at hinB
  try rw [htrans2] at houtB
  try rw [htrans2] at hok
  simp only [List.foldlM_nil, List.foldl_nil] at hpop2 hinB houtB hok
  cases hpop2
  have hXin2 : (alGet (X ++ "_in")
      (List.foldl (fun m kv => alRemove kv.1 m) na1 acc.outputs)).isSome := by
    rw [popFoldl_preserve (X ++ "_in") acc.outputs na1
      (fun a b hab => (inv2.hkeys_out a b hab).1)]
    rw [hXin1]
    exact inv2.hxin hinX
  have hXout2 : (alGet (X ++ "_out")
      (List.foldl (fun m kv => alRemove kv.1 m) na1 acc.outputs)).isSome := by
    rw [popFoldl_preserve (X ++ "_out") acc.outputs na1
      (fun a b hab => (inv2.hkeys_out a b hab).2)]
    rw [hXout1]
    exact inv2.hxout houtX
  obtain ⟨hin1, hin2⟩ := inBoundary_count X acc.outer_arrays acc.inputs.enum [] inB hinB
  obtain ⟨hout1, hout2⟩ := outBoundary_count X acc.outer_arrays acc.inputs.length
    acc.outputs.enum [] outB houtB
  have hcin : acc.inputs.countP (fun kv => kv.1 = X) = 1 :=
    keyCount_one_of_nodup X acc.inputs inv2.hin_nodup hinX
  have hcout : acc.outputs.countP (fun kv => kv.1 = X) = 1 :=
    keyCount_one_of_nodup X acc.outputs inv2.hout_nodup houtX
  cases hok
  refine ⟨keyCount_one_of_nodup X acc.outer_arrays inv2.houter_nodup
    (inv2.houter.mpr (Or.inl hinX)), ?_⟩
  refine ⟨_, _, _, _, rfl, rfl, ?_, ?_, ?_, ?_⟩
  · exact hXin2
  · exact hXout2
  · dsimp only
    rw [List.countP_append, hin1, hout2, countP_enum (fun kv => decide (kv.1 = X)) acc.inputs]
    simpa using hcin
  · dsimp only
    rw [List.countP_append, hin2, hout1, countP_enum (fun kv => decide (kv.1 = X)) acc.outputs]
    simpa using hcout

theorem C6_read_write_classification_witness :
    NestSDFG.apply C6wSDFG false = Except.ok C6wR ∧
      (C6wR.arrays.countP (fun kv => kv.1 = "X") = 1 ∧
        ∃ os ch ins outs,
          C6wR.states = [os] ∧
            alGet 0 os.nodes = some (Node1.nested ch ins outs) ∧
            (alGet ("X" ++ "_in") ch.arrays).isSome ∧
            (alGet ("X" ++ "_out") ch.arrays).isSome ∧
            os.edges.countP (fun e => e.dst = 0 ∧ e.data.data = "X") = 1 ∧
            os.edges.countP (fun e => e.src = 0 ∧ e.data.data = "X") = 1) := by
  refine ⟨rfl, ?_⟩
  refine C6_read_write_classification C6wSDFG _ _ "X" { shape := [10], transient := false }
    C6wR rfl rfl rfl ?_ ?_ ?_ ⟨0, by decide, by decide⟩ ⟨1, by decide, by decide⟩ rfl
  · intro d
    refine ⟨fun h => ?_, fun h => ?_⟩
    · have hl := congrArg String.length h
      rw [String.length_append] at hl
      have h3 : ("_in" : String).length = 3 := rfl
      have h1 : ("X" : String).length = 1 := rfl
      omega
    · have hl := congrArg String.length h
      rw [String.length_append] at hl
      have h3 : ("_out" : String).length = 4 := rfl
      have h1 : ("X" : String).length = 1 := rfl
      omega
  · intro i d h
    simp only [List.mem_cons, List.mem_singleton, Prod.mk.injEq] at h
    rcases h with ⟨h1, h2⟩ | ⟨h1, h2⟩ | h
    · cases h2
      exact ⟨by decide, by decide⟩
    · cases h2
    · cases h
  · intro i d h
    simp only [List.mem_cons, List.mem_singleton, Prod.mk.injEq] at h
    rcases h with ⟨h1, h2⟩ | ⟨h1, h2⟩ | h
    · cases h2
    · cases h2
      exact ⟨by decide, by decide⟩
    · cases h

theorem alGet_mem {α β : Type} [DecidableEq α] (k : α) (v : β) :
    ∀ m : List (α × β), alGet k m = some v → (k, v) ∈ m := by
  intro m
  induction m with
  | nil => intro h; simp [alGet] at h
  | cons hd t ih =>
    intro h
    rcases hd with ⟨k2, v2⟩
    unfold alGet at h
    split at h
    · rename_i heq
      cases h
      subst heq
      exact List.mem_cons_self _ _
    · exact List.mem_cons.mpr (Or.inr (ih h))

theorem alGet_eq_of_mem_nodup {α β : Type} [DecidableEq α] (k : α) (v : β)
    (m : List (α × β)) (hnd : (m.map (fun q => q.1)).Nodup) (hm : (k, v) ∈ m) :
    alGet k m = some v := by
  induction m with
  | nil => cases hm
  | cons hd t ih =>
    rcases hd with ⟨k2, v2⟩
    simp only [List.map_cons, List.nodup_cons] at hnd
    rcases List.mem_cons.mp hm with h | h
    · cases h
      simp [alGet]
    · have hk : k2 ≠ k := by
        intro he
        subst he
        exact hnd.1 (List.mem_map.mpr ⟨(k2, v), h, rfl⟩)
      unfold alGet
      rw [if_neg hk]
      exact ih hnd.2 h

theorem foldl_max_le_start (l : List (Nat × Node1)) :
    ∀ m : Nat, m ≤ l.foldl (fun m p => max m p.1) m := by
  induction l with
  | nil => intro m; exact Nat.le_refl m
  | cons hd t ih =>
    intro m
    rw [List.foldl_cons]
    exact Nat.le_trans (Nat.le_max_left m hd.1) (ih (max m hd.1))

theorem mem_le_maxFold (l : List (Nat × Node1)) :
    ∀ (m : Nat) (q : Nat × Node1), q ∈ l → q.1 ≤ l.foldl (fun m p => max m p.1) m := by
  induction l with
  | nil => intro m q h; cases h
  | cons hd t ih =>
    intro m q h
    rw [List.foldl_cons]
    rcases List.mem_cons.mp h with h | h
    · subst h
      exact Nat.le_trans (Nat.le_max_right m q.1) (foldl_max_le_start t (max m q.1))
    · exact ih (max m hd.1) q h

theorem mem_le_maxNodeId (st : State1) (q : Nat × Node1) (h : q ∈ st.nodes) :
    q.1 ≤ maxNodeId st :=
  mem_le_maxFold st.nodes 0 q h

theorem countP_congr_mem {α : Type} (l : List α) (p q : α → Bool)
    (h : ∀ a ∈ l, p a = q a) : l.countP p = l.countP q := by
  induction l with
  | nil => rfl
  | cons hd t ih =>
    rw [List.countP_cons, List.countP_cons, h hd (List.mem_cons_self hd t),
      ih (fun a ha => h a (List.mem_cons.mpr (Or.inr ha)))]

theorem scopeK_eq_entry (n : Node0) (mid : Nat) :
    n.scopeK = ScopeK.entry mid ↔ n = Node0.mapEntry mid := by
  cases n <;> simp [Node0.scopeK]

theorem scopeK_eq_exit (n : Node0) (mid : Nat) :
    n.scopeK = ScopeK.exit0 mid ↔ n = Node0.mapExit mid := by
  cases n <;> simp [Node0.scopeK]

theorem scopeK1_eq_entry (n : Node1) (mid : Nat) :
    n.scopeK = ScopeK.entry mid ↔ n = Node1.base (Node0.mapEntry mid) := by
  cases n with
  | base b => simp only [Node1.scopeK]; rw [scopeK_eq_entry]; simp
  | nested ch i o => simp [Node1.scopeK]

theorem scopeK1_eq_exit (n : Node1) (mid : Nat) :
    n.scopeK = ScopeK.exit0 mid ↔ n = Node1.base (Node0.mapExit mid) := by
  cases n with
  | base b => simp only [Node1.scopeK]; rw [scopeK_eq_exit]; simp
  | nested ch i o => simp [Node1.scopeK]

/-- Elements appended by the classification-style folds are related one-to-one
to the elements folded over, whenever each step's output is related to its
input. -/
theorem foldAppend_forall2 {ε σ α β : Type} (f : σ → α → Except ε (σ × β))
    (R : β → α → Prop)
    (hf : ∀ s a s2 b, f s a = .ok (s2, b) → R b a) (l : List α) :
    ∀ (s : σ) (ys : List β) (res : σ × List β),
      (l.foldlM (fun (q : σ × List β) p => do
          let (a2, p2) ← f q.1 p
          pure (a2, q.2 ++ [p2])) (s, ys)) = .ok res →
      ∃ zs, res.2 = ys ++ zs ∧ List.Forall₂ R zs l := by
  induction l with
  | nil =>
    intro s ys res h
    simp only [List.foldlM_nil] at h
    cases h
    exact ⟨[], by simp, List.Forall₂.nil⟩
  | cons a t ih =>
    intro s ys res h
    rw [List.foldlM_cons] at h
    rcases except_bind_ok _ _ _ h with ⟨x, hx, hrest⟩
    rcases except_bind_ok _ _ _ hx with ⟨⟨s2, b⟩, hf1, hpure⟩
    cases hpure
    obtain ⟨zs, hz1, hz2⟩ := ih s2 (ys ++ [b]) res hrest
    exact ⟨b :: zs, by simp [hz1], List.Forall₂.cons (hf s a s2 b hf1) hz2⟩

theorem countP_of_forall2 {α β : Type} (R : α → β → Prop) (p : α → Bool) (q : β → Bool)
    (hpq : ∀ a b, R a b → p a = q b) :
    ∀ (l1 : List α) (l2 : List β), List.Forall₂ R l1 l2 → l1.countP p = l2.countP q := by
  intro l1 l2 h
  induction h with
  | nil => rfl
  | cons hr _ ih =>
    rw [List.countP_cons, List.countP_cons, hpq _ _ hr, ih]

theorem mem_of_forall2 {α β : Type} (R : α → β → Prop) :
    ∀ (l1 : List α) (l2 : List β), List.Forall₂ R l1 l2 → ∀ a ∈ l1, ∃ b ∈ l2, R a b := by
  intro l1 l2 h
  induction h with
  | nil => intro a ha; cases ha
  | cons hr _ ih =>
    intro a ha
    rcases List.mem_cons.mp ha with ha | ha
    · subst ha
      exact ⟨_, List.mem_cons_self _ _, hr⟩
    · obtain ⟨b, hb, hrb⟩ := ih a ha
      exact ⟨b, List.mem_cons.mpr (Or.inr hb), hrb⟩

theorem forall2_comp {α β γ : Type} (R : α → β → Prop) (S : β → γ → Prop)
    (T : α → γ → Prop) (h : ∀ a b c, R a b → S b c → T a c) :
    ∀ (l1 : List α) (l2 : List β) (l3 : List γ),
      List.Forall₂ R l1 l2 → List.Forall₂ S l2 l3 → List.Forall₂ T l1 l3 := by
  intro l1 l2 l3 h1
  induction h1 generalizing l3 with
  | nil =>
    intro h2
    cases h2
    exact List.Forall₂.nil
  | cons hr _ ih =>
    intro h2
    cases h2 with
    | cons hs htl => exact List.Forall₂.cons (h _ _ _ hr hs) (ih _ htl)

/-- `classifyNode` keeps the node handle and the scope kind: only access-node
data names are rewritten. -/
theorem classifyNode_kind (st : State0) (acc : NestAcc) (p : Nat × Node0)
    (a2 : NestAcc) (p2 : Nat × Node0)
    (h : NestSDFG.classifyNode st acc p = .ok (a2, p2)) :
    p2.1 = p.1 ∧ p2.2.scopeK = p.2.scopeK := by
  obtain ⟨i, nd⟩ := p
  cases nd with
  | access d =>
    unfold NestSDFG.classifyNode at h
    dsimp only at h
    cases h1 : alGet d acc.nested_arrays with
    | none => rw [h1] at h; cases h
    | some desc =>
      rw [h1] at h
      dsimp only at h
      split at h
      · cases h; exact ⟨rfl, rfl⟩
      · repeat' split at h
        all_goals first
          | (cases h; exact ⟨rfl, rfl⟩)
          | cases h
  | tasklet t =>
    unfold NestSDFG.classifyNode at h
    dsimp only at h
    cases h
    exact ⟨rfl, rfl⟩
  | mapEntry m =>
    unfold NestSDFG.classifyNode at h
    dsimp only at h
    cases h
    exact ⟨rfl, rfl⟩
  | mapExit m =>
    unfold NestSDFG.classifyNode at h
    dsimp only at h
    cases h
    exact ⟨rfl, rfl⟩

/-- `promoteNode` keeps the node handle and the scope kind likewise. -/
theorem promoteNode_kind (st : State0) (acc : NestAcc) (p : Nat × Node0)
    (a2 : NestAcc) (p2 : Nat × Node0)
    (h : NestSDFG.promoteNode st acc p = .ok (a2, p2)) :
    p2.1 = p.1 ∧ p2.2.scopeK = p.2.scopeK := by
  obtain ⟨i, nd⟩ := p
  cases nd with
  | access d =>
    unfold NestSDFG.promoteNode at h
    dsimp only at h
    cases h1 : alGet d acc.nested_arrays with
    | none => rw [h1] at h; cases h
    | some desc =>
      rw [h1] at h
      dsimp only at h
      split at h
      · cases h; exact ⟨rfl, rfl⟩
      · cases h; exact ⟨rfl, rfl⟩
  | tasklet t =>
    unfold NestSDFG.promoteNode at h
    dsimp only at h
    cases h
    exact ⟨rfl, rfl⟩
  | mapEntry m =>
    unfold NestSDFG.promoteNode at h
    dsimp only at h
    cases h
    exact ⟨rfl, rfl⟩
  | mapExit m =>
    unfold NestSDFG.promoteNode at h
    dsimp only at h
    cases h
    exact ⟨rfl, rfl⟩

/-- One state's classification (with or without promotion) relates the output
nodes one-to-one to the input nodes, preserving handle and scope kind. -/
theorem classifyState_kind (promote : Bool) (acc : NestAcc) (st : State0)
    (acc2 : NestAcc) (st2 : State0)
    (h : NestSDFG.classifyState promote acc st = .ok (acc2, st2)) :
    List.Forall₂ (fun q p => q.1 = p.1 ∧ Node0.scopeK q.2 = Node0.scopeK p.2)
      st2.nodes st.nodes := by
  unfold NestSDFG.classifyState at h
  rcases except_bind_ok _ _ _ h with ⟨⟨a1, nodes1⟩, h1, hrest⟩
  obtain ⟨zs, hz, hF⟩ :=
    foldAppend_forall2 (NestSDFG.classifyNode st)
      (fun q p => q.1 = p.1 ∧ Node0.scopeK q.2 = Node0.scopeK p.2)
      (fun s a s2 b hb => classifyNode_kind st s a s2 b hb) st.nodes acc [] (a1, nodes1) h1
  dsimp only at hz
  rw [List.nil_append] at hz
  subst hz
  cases promote with
  | false =>
    simp only [Bool.false_eq_true, if_false] at hrest
    cases hrest
    exact hF
  | true =>
    simp only [if_true] at hrest
    rcases except_bind_ok _ _ _ hrest with ⟨⟨a3, nodes2⟩, h2, hpure⟩
    cases hpure
    obtain ⟨zs2, hz2, hF2⟩ :=
      foldAppend_forall2 (NestSDFG.promoteNode st)
        (fun q p => q.1 = p.1 ∧ Node0.scopeK q.2 = Node0.scopeK p.2)
        (fun s a s2 b hb => promoteNode_kind st s a s2 b hb) nodes1 a1 [] (a3, nodes2) h2
    dsimp only at hz2
    rw [List.nil_append] at hz2
    subst hz2
    exact forall2_comp _ _ _
      (fun a b c hab hbc => ⟨hab.1.trans hbc.1, hab.2.trans hbc.2⟩) _ _ _ hF2 hF

/-- Balance transfers along a handle/kind-preserving one-to-one node
correspondence. -/
theorem balanced_of_forall2 (n1 n2 : List (Nat × Node0))
    (hF : List.Forall₂ (fun q p => q.1 = p.1 ∧ Node0.scopeK q.2 = Node0.scopeK p.2) n1 n2)
    (hbal : ∀ mid, (∃ i, (i, Node0.mapEntry mid) ∈ n2) →
      n2.countP (fun q => q.2 = Node0.mapExit mid) = 1) :
    ∀ mid, (∃ i, (i, Node0.mapEntry mid) ∈ n1) →
      n1.countP (fun q => q.2 = Node0.mapExit mid) = 1 := by
  intro mid hex
  obtain ⟨i, hm⟩ := hex
  obtain ⟨b, hb, hR⟩ := mem_of_forall2 _ _ _ hF (i, Node0.mapEntry mid) hm
  have hb2 : b.2 = Node0.mapEntry mid := by
    refine (scopeK_eq_entry b.2 mid).mp ?_
    have h2 := hR.2
    dsimp only at h2
    rw [← h2]
    rfl
  have hcnt := countP_of_forall2
    (fun (q : Nat × Node0) (p : Nat × Node0) => q.1 = p.1 ∧ Node0.scopeK q.2 = Node0.scopeK p.2)
    (fun q => q.2 = Node0.mapExit mid) (fun q => q.2 = Node0.mapExit mid)
    (fun a b hab => by
      refine decide_eq_decide.mpr ?_
      rw [← scopeK_eq_exit, ← scopeK_eq_exit, hab.2])
    n1 n2 hF
  rw [hcnt]
  refine hbal mid ⟨b.1, ?_⟩
  have : (b.1, Node0.mapEntry mid) = b := by
    rw [← hb2]
  rw [this]
  exact hb

/-- `NestSDFG.apply` preserves scope balance: the new parent state holds no
map nodes, and every child state's nodes correspond one-to-one in handle and
kind to a state of the input. -/
theorem nest_apply_balance (sdfg : SDFG0) (promote : Bool) (r : SDFG1)
    (hbal : ∀ st ∈ sdfg.states, State0.balanced st)
    (h : NestSDFG.apply sdfg promote = .ok r) :
    (∀ st ∈ r.states, State1.balanced st) ∧
      (∀ st ∈ r.states, ∀ q ∈ st.nodes, ∀ ch ins outs,
        q.2 = Node1.nested ch ins outs → ∀ cst ∈ ch.states, State0.balanced cst) := by
  unfold NestSDFG.apply at h
  rcases except_bind_ok _ _ _ h with ⟨⟨acc, statesL⟩, hfold, h⟩
  rcases except_bind_ok _ _ _ h with ⟨na1, hpop1, h⟩
  rcases except_bind_ok _ _ _ h with ⟨na2, hpop2, h⟩
  rcases except_bind_ok _ _ _ h with ⟨inB, hinB, h⟩
  rcases except_bind_ok _ _ _ h with ⟨outB, houtB, h⟩
  obtain ⟨zs, hz, hF⟩ :=
    foldAppend_forall2 (NestSDFG.classifyState promote)
      (fun st2 st => List.Forall₂
        (fun q p => q.1 = p.1 ∧ Node0.scopeK q.2 = Node0.scopeK p.2) st2.nodes st.nodes)
      (fun s a s2 b hb => classifyState_kind promote s a s2 b hb)
      sdfg.states _ [] (acc, statesL) hfold
  dsimp only at hz
  rw [List.nil_append] at hz
  subst hz
  cases h
  constructor
  · intro st hst
    simp only [List.mem_singleton] at hst
    subst hst
    intro mid hex
    exfalso
    obtain ⟨i, hm⟩ := hex
    dsimp only at hm
    rcases List.mem_cons.mp hm with hm | hm
    · cases hm
    · rcases List.mem_append.mp hm with hm | hm
      · rcases List.mem_map.mp hm with ⟨p, _, hp⟩
        cases hp
      · rcases List.mem_map.mp hm with ⟨p, _, hp⟩
        cases hp
  · intro st hst q hq ch ins outs hch cst hcst
    simp only [List.mem_singleton] at hst
    subst hst
    dsimp only at hq
    rcases List.mem_cons.mp hq with hm | hm
    · subst hm
      dsimp only at hch
      cases hch
      dsimp only at hcst
      rcases List.mem_map.mp hcst with ⟨st1, hst1, hmap⟩
      subst hmap
      obtain ⟨st0, hst0, hFn⟩ := mem_of_forall2 _ _ _ hF st1 hst1
      exact fun mid hex => balanced_of_forall2 st1.nodes st0.nodes hFn (hbal st0 hst0) mid hex
    · exfalso
      rcases List.mem_append.mp hm with hm | hm
      · rcases List.mem_map.mp hm with ⟨p, _, hp⟩
        subst hp
        cases hch
      · rcases List.mem_map.mp hm with ⟨p, _, hp⟩
        subst hp
        cases hch

theorem foldlM_st_nodes {ε α : Type} (f : State1 → α → Except ε State1)
    (hf : ∀ st a st2, f st a = .ok st2 → st2.nodes = st.nodes) (l : List α) :
    ∀ st st2, l.foldlM f st = .ok st2 → st2.nodes = st.nodes := by
  induction l with
  | nil =>
    intro st st2 h
    simp only [List.foldlM_nil] at h
    cases h
    rfl
  | cons a t ih =>
    intro st st2 h
    rw [List.foldlM_cons] at h
    rcases except_bind_ok _ _ _ h with ⟨st1, h1, h2⟩
    rw [ih st1 st2 h2, hf st a st1 h1]

theorem foldlM_pair_nodes {ε α : Type}
    (f : State1 × List Nat → α → Except ε (State1 × List Nat))
    (hf : ∀ q a q2, f q a = .ok q2 → q2.1.nodes = q.1.nodes) (l : List α) :
    ∀ q q2, l.foldlM f q = .ok q2 → q2.1.nodes = q.1.nodes := by
  induction l with
  | nil =>
    intro q q2 h
    simp only [List.foldlM_nil] at h
    cases h
    rfl
  | cons a t ih =>
    intro q q2 h
    rw [List.foldlM_cons] at h
    rcases except_bind_ok _ _ _ h with ⟨q1, h1, h2⟩
    rw [ih q1 q2 h2, hf q a q1 h1]

/-- The splicing pass touches edges only. -/
theorem splice_nodes (isInput : Bool) (ofs : Nat) (renCh : State0)
    (nb : List (Nat × Edge)) (st : State1) (mo : List Nat)
    (st2 : State1) (mo2 : List Nat)
    (h : InlineSDFG.splice isInput ofs renCh nb st mo = .ok (st2, mo2)) :
    st2.nodes = st.nodes := by
  refine foldlM_pair_nodes _ ?_ nb (st, mo) (st2, mo2) h
  intro q kv q2 hq
  refine foldlM_pair_nodes _ ?_
    (if isInput then outEdges renCh.edges kv.1 else inEdges renCh.edges kv.1) q q2 hq
  intro q3 inner q4 hq3
  obtain ⟨st3, mo3⟩ := q3
  dsimp only at hq3 ⊢
  rcases except_bind_ok _ _ _ hq3 with ⟨nm, hnm, hrest⟩
  have hmid := foldlM_pair_nodes _ ?reach _ _ q4 hrest
  case reach =>
    intro q5 teid q6 hq5
    obtain ⟨st5, mo5⟩ := q5
    dsimp only at hq5 ⊢
    cases hfind : (st5.edges.find? (fun e => e.eid = teid)) with
    | none =>
      rw [hfind] at hq5
      cases hq5
      rfl
    | some te =>
      rw [hfind] at hq5
      rcases except_bind_ok _ _ _ hq5 with ⟨nm2, hnm2, hp⟩
      cases hp
      rfl
  rw [hmid]

/-- The internal-memlet rewriting pass touches edges only. -/
theorem modifyInternal_nodes (ofs : Nat) (copied : List (Nat × Node0))
    (input_set output_set : List (String × Option String))
    (inputsM outputsM : List (Option String × Edge)) (modified : List Nat)
    (st : State1) (st2 : State1)
    (h : InlineSDFG.modifyInternal ofs copied input_set output_set inputsM outputsM
        modified st = .ok st2) :
    st2.nodes = st.nodes := by
  have hstep : ∀ (top : Edge) (st7 : State1) (eid : Nat) (st8 : State1),
      (if modified.contains eid = true then pure st7
       else
         match st7.edges.find? (fun e => e.eid = eid) with
         | none => pure st7
         | some e => do
           let nm ← (modify_memlet e.data top.data).mapError
             (fun m => ((m, st7) : String × State1))
           pure { st7 with edges := setEdgeData st7.edges eid nm }) = Except.ok st8 →
      st8.nodes = st7.nodes := by
    intro top st7 eid st8 he
    by_cases hc : modified.contains eid = true
    · rw [if_pos hc] at he
      cases he
      rfl
    · rw [if_neg hc] at he
      cases hfind : st7.edges.find? (fun e => e.eid = eid) with
      | none =>
        rw [hfind] at he
        cases he
        rfl
      | some e =>
        rw [hfind] at he
        rcases except_bind_ok _ _ _ he with ⟨nm, hnm, hp⟩
        cases hp
        rfl
  refine foldlM_st_nodes _ ?_ copied st st2 h
  intro st3 q st4 hq
  obtain ⟨qi, qn⟩ := q
  cases qn with
  | access d =>
    dsimp only at hq
    cases hin : alGet d input_set with
    | none =>
      rw [hin] at hq
      dsimp only at hq
      cases hout : alGet d output_set with
      | none =>
        rw [hout] at hq
        cases hq
        rfl
      | some conn =>
        rw [hout] at hq
        dsimp only at hq
        cases hconn : alGet conn outputsM with
        | none =>
          rw [hconn] at hq
          cases hq
        | some top =>
          rw [hconn] at hq
          refine foldlM_st_nodes _ ?_ _ st3 st4 hq
          intro st7 eid st8 he
          exact hstep top st7 eid st8 he
    | some conn =>
      rw [hin] at hq
      dsimp only at hq
      cases hconn : alGet conn inputsM with
      | none =>
        rw [hconn] at hq
        cases hq
      | some top =>
        rw [hconn] at hq
        dsimp only at hq
        rcases except_bind_ok _ _ _ hq with ⟨stm, h1, h2⟩
        have e1 : stm.nodes = st3.nodes := by
          refine foldlM_st_nodes _ ?_ _ st3 stm h1
          intro st7 eid st8 he
          exact hstep top st7 eid st8 he
        cases hout : alGet d output_set with
        | none =>
          rw [hout] at h2
          cases h2
          exact e1
        | some conn2 =>
          rw [hout] at h2
          dsimp only at h2
          cases hconn2 : alGet conn2 outputsM with
          | none =>
            rw [hconn2] at h2
            cases h2
          | some top2 =>
            rw [hconn2] at h2
            have e2 : st4.nodes = stm.nodes := by
              refine foldlM_st_nodes _ ?_ _ stm st4 h2
              intro st7 eid st8 he
              exact hstep top2 st7 eid st8 he
            rw [e2, e1]
  | tasklet t =>
    dsimp only at hq
    cases hq
    rfl
  | mapEntry m =>
    dsimp only at hq
    cases hq
    rfl
  | mapExit m =>
    dsimp only at hq
    cases hq
    rfl

/-- The reconnection pass touches edges only. -/
theorem readd_nodes (isInput : Bool) (ofs : Nat) (renCh : State0) (order : List Nat)
    (removed : List Edge) (st st2 : State1)
    (h : InlineSDFG.readd isInput ofs renCh order removed st = .ok st2) :
    st2.nodes = st.nodes := by
  refine foldlM_st_nodes _ ?_ removed st st2 h
  intro st3 edge st4 he
  dsimp only at he
  cases hfind : ((if isInput then order else order.reverse).find? (fun n =>
      match alGet n renCh.nodes with
      | some (.access d) => d == edge.data.data
      | _ => false)) with
  | none =>
    rw [hfind] at he
    cases he
  | some n =>
    rw [hfind] at he
    cases he
    rfl

theorem removeWalk_nodes (reverse : Bool) :
    ∀ (l : List Edge) (st : State1), (removeWalk reverse l st).1.nodes = st.nodes := by
  intro l
  induction l with
  | nil => intro st; rfl
  | cons pe rest ih =>
    intro st
    unfold removeWalk
    dsimp only
    by_cases hlen : (if reverse = true then
        (outEdges st.edges pe.src).filter (fun e => e.srcConn = pe.srcConn)
      else
        (inEdges st.edges pe.dst).filter (fun e => e.dstConn = pe.dstConn)).length = 1
    · rw [if_pos hlen]
      exact ih _
    · rw [if_neg hlen]

theorem pathBack_singleton (es : List Edge) (kind : Nat → ScopeK) (e : Edge)
    (h : kind e.src = ScopeK.notScope) :
    ∀ fuel, pathBack es kind fuel e = [e] := by
  intro fuel
  cases fuel with
  | zero => rfl
  | succ n =>
    simp only [pathBack]
    rw [h]

theorem pathFwd_singleton (es : List Edge) (kind : Nat → ScopeK) (e : Edge)
    (h : kind e.dst = ScopeK.notScope) :
    ∀ fuel, pathFwd es kind fuel e = [e] := by
  intro fuel
  cases fuel with
  | zero => rfl
  | succ n =>
    simp only [pathFwd]
    rw [h]

theorem memlet_path_singleton (es : List Edge) (kind : Nat → ScopeK) (e : Edge)
    (hs : kind e.src = ScopeK.notScope) (hd : kind e.dst = ScopeK.notScope) :
    memlet_path es kind e = [e] := by
  unfold memlet_path
  rw [pathBack_singleton es kind e hs, pathFwd_singleton es kind e hd]
  rfl

theorem kindOf_of_filter (base : List (Nat × Node1)) (M : Nat)
    (hbase : ∀ q ∈ base, q.1 ≤ M → Node1.scopeK q.2 = ScopeK.notScope)
    (st : State1) (g : Nat → Bool) (hst : st.nodes = base.filter (fun q => g q.1))
    (n : Nat) (hn : n ≤ M) : st.kindOf n = ScopeK.notScope := by
  unfold State1.kindOf
  cases hget : alGet n st.nodes with
  | none => rfl
  | some v =>
    have hm := alGet_mem n v st.nodes hget
    rw [hst] at hm
    exact hbase (n, v) (List.mem_filter.mp hm).1 hn

theorem if_reverse_singleton {α : Type} (c : Bool) (e : α) :
    (if c = true then [e].reverse else [e]) = [e] := by
  cases c <;> simp

/-- With both endpoints outside any scope, one `_remove_edge_path` walk either
leaves the nodes alone or drops exactly the terminus handle. -/
theorem removeEdgePathStep_filter (reverse : Bool) (st : State1) (e : Edge)
    (hs : st.kindOf e.src = ScopeK.notScope) (hd : st.kindOf e.dst = ScopeK.notScope) :
    (InlineSDFG.removeEdgePathStep reverse st e).1.nodes = st.nodes ∨
      (InlineSDFG.removeEdgePathStep reverse st e).1.nodes =
        st.nodes.filter (fun q => q.1 ≠ (if reverse = true then e.src else e.dst)) := by
  unfold InlineSDFG.removeEdgePathStep
  rw [memlet_path_singleton st.edges st.kindOf e hs hd]
  dsimp only
  rw [if_reverse_singleton reverse e]
  unfold removeWalk
  dsimp only
  by_cases hlen : (if reverse = true then
      (outEdges st.edges e.src).filter (fun e2 => e2.srcConn = e.srcConn)
    else
      (inEdges st.edges e.dst).filter (fun e2 => e2.dstConn = e.dstConn)).length = 1
  · rw [if_pos hlen]
    unfold removeWalk
    dsimp only
    right
    rfl
  · rw [if_neg hlen]
    left
    rfl

theorem removeEdgePaths_filter (reverse : Bool) (M : Nat) (base : List (Nat × Node1))
    (hbase : ∀ q ∈ base, q.1 ≤ M → Node1.scopeK q.2 = ScopeK.notScope)
    (edgeMap : List (Option String × Edge)) :
    ∀ (st : State1) (acc : List Edge) (g : Nat → Bool),
      (∀ kv ∈ edgeMap, kv.2.src ≤ M ∧ kv.2.dst ≤ M) →
      st.nodes = base.filter (fun q => g q.1) →
      ∃ g2 : Nat → Bool,
        (edgeMap.foldl
          (fun (q : State1 × List Edge) kv =>
            ((InlineSDFG.removeEdgePathStep reverse q.1 kv.2).1,
              q.2 ++ (InlineSDFG.removeEdgePathStep reverse q.1 kv.2).2)) (st, acc)).1.nodes =
          base.filter (fun q => g2 q.1) ∧
        (∀ n, M < n → g2 n = g n) := by
  induction edgeMap with
  | nil =>
    intro st acc g hem hst
    exact ⟨g, hst, fun n _ => rfl⟩
  | cons kv t ih =>
    intro st acc g hem hst
    rw [List.foldl_cons]
    have hsrc := kindOf_of_filter base M hbase st g hst kv.2.src
      (hem kv (List.mem_cons_self kv t)).1
    have hdst := kindOf_of_filter base M hbase st g hst kv.2.dst
      (hem kv (List.mem_cons_self kv t)).2
    rcases removeEdgePathStep_filter reverse st kv.2 hsrc hdst with hcase | hcase
    · exact ih _ _ g (fun kv2 h2 => hem kv2 (List.mem_cons.mpr (Or.inr h2)))
        (by rw [hcase, hst])
    · have hnle : (if reverse = true then kv.2.src else kv.2.dst) ≤ M := by
        cases reverse
        · simpa using (hem kv (List.mem_cons_self kv t)).2
        · simpa using (hem kv (List.mem_cons_self kv t)).1
      have hstep : (InlineSDFG.removeEdgePathStep reverse st kv.2).1.nodes =
          base.filter (fun q => g q.1 &&
            decide (q.1 ≠ (if reverse = true then kv.2.src else kv.2.dst))) := by
        rw [hcase, hst, List.filter_filter]
        refine List.filter_congr ?_
        intro a ha
        rw [Bool.and_comm]
      obtain ⟨g2, hg2, hmono⟩ := ih _ _
        (fun n => g n && decide (n ≠ (if reverse = true then kv.2.src else kv.2.dst)))
        (fun kv2 h2 => hem kv2 (List.mem_cons.mpr (Or.inr h2))) hstep
      refine ⟨g2, hg2, ?_⟩
      intro n hn
      rw [hmono n hn]
      have hne : (decide (n ≠ (if reverse = true then kv.2.src else kv.2.dst))) = true := by
        refine decide_eq_true ?_
        omega
      rw [hne, Bool.and_true]

theorem removeEdgePaths_nodes (reverse : Bool) (M : Nat) (base : List (Nat × Node1))
    (hbase : ∀ q ∈ base, q.1 ≤ M → Node1.scopeK q.2 = ScopeK.notScope)
    (edgeMap : List (Option String × Edge)) (st : State1) (g : Nat → Bool)
    (hem : ∀ kv ∈ edgeMap, kv.2.src ≤ M ∧ kv.2.dst ≤ M)
    (hst : st.nodes = base.filter (fun q => g q.1)) :
    ∃ g2 : Nat → Bool,
      (InlineSDFG.removeEdgePaths reverse edgeMap st).1.nodes =
        base.filter (fun q => g2 q.1) ∧ (∀ n, M < n → g2 n = g n) :=
  removeEdgePaths_filter reverse M base hbase edgeMap st [] g hem hst

theorem countP_map2 {α β : Type} (f : α → β) (p : β → Bool) :
    ∀ l : List α, (l.map f).countP p = l.countP (fun a => p (f a)) := by
  intro l
  induction l with
  | nil => rfl
  | cons hd t ih =>
    rw [List.map_cons, List.countP_cons, List.countP_cons, ih]

theorem countP_filter2 {α : Type} (p q : α → Bool) :
    ∀ l : List α, (l.filter q).countP p = l.countP (fun a => p a && q a) := by
  intro l
  induction l with
  | nil => rfl
  | cons hd t ih =>
    cases hq : q hd with
    | true =>
      rw [List.filter_cons_of_pos hq, List.countP_cons, List.countP_cons, ih, hq,
        Bool.and_true]
    | false =>
      rw [List.filter_cons_of_neg (by simp [hq]), List.countP_cons, ih, hq, Bool.and_false]
      simp

theorem mem_foldl_alSet {α β : Type} [DecidableEq α] (f : β → α) (l : List β) :
    ∀ (m : List (α × β)) (kv : α × β),
      kv ∈ l.foldl (fun m e => alSet (f e) e m) m →
      kv ∈ m ∨ ∃ e ∈ l, kv = (f e, e) := by
  induction l with
  | nil =>
    intro m kv h
    exact Or.inl h
  | cons e t ih =>
    intro m kv h
    rw [List.foldl_cons] at h
    rcases ih (alSet (f e) e m) kv h with h2 | h2
    · obtain ⟨k2, v2⟩ := kv
      rcases mem_alSet (f e) e m k2 v2 h2 with h3 | h3
      · exact Or.inr ⟨e, List.mem_cons_self e t, by rw [h3.1, h3.2]⟩
      · exact Or.inl h3
    · obtain ⟨e2, he2, hkv⟩ := h2
      exact Or.inr ⟨e2, List.mem_cons.mpr (Or.inr he2), hkv⟩

/-- Every access node collected as a boundary node is keyed by an access node
of the child state. -/
theorem collectBoundary_access (nstate : State0) (tr : List (String × String))
    (cm : List (Option String × Edge)) (ids : List Nat) :
    ∀ (acc out : List (Nat × Edge)),
      (∀ kv ∈ acc, ∃ d, alGet kv.1 nstate.nodes = some (Node0.access d)) →
      (ids.foldlM
        (fun (acc : List (Nat × Edge)) i =>
          match alGet i nstate.nodes with
          | some (.access d) =>
            if (alGet d tr).isNone then
              match alGet (some d) cm with
              | some e => pure (acc ++ [(i, e)])
              | none => throw ("KeyError: " ++ d)
            else
              pure acc
          | _ => pure acc) acc : Except String (List (Nat × Edge))) = Except.ok out →
      ∀ kv ∈ out, ∃ d, alGet kv.1 nstate.nodes = some (Node0.access d) := by
  induction ids with
  | nil =>
    intro acc out hacc h
    simp only [List.foldlM_nil] at h
    cases h
    exact hacc
  | cons i t ih =>
    intro acc out hacc h
    rw [List.foldlM_cons] at h
    rcases except_bind_ok _ _ _ h with ⟨acc2, h1, h2⟩
    refine ih acc2 out ?_ h2
    intro kv hkv
    cases hget : alGet i nstate.nodes with
    | none =>
      rw [hget] at h1
      cases h1
      exact hacc kv hkv
    | some nd =>
      rw [hget] at h1
      cases nd with
      | access d =>
        dsimp only at h1
        by_cases htr2 : (alGet d tr).isNone = true
        · rw [if_pos htr2] at h1
          cases hcm : alGet (some d) cm with
          | none =>
            rw [hcm] at h1
            cases h1
          | some e =>
            rw [hcm] at h1
            cases h1
            rcases List.mem_append.mp hkv with hkv | hkv
            · exact hacc kv hkv
            · rcases List.mem_singleton.mp hkv with rfl
              exact ⟨d, hget⟩
        · rw [if_neg htr2] at h1
          cases h1
          exact hacc kv hkv
      | tasklet tk =>
        cases h1
        exact hacc kv hkv
      | mapEntry m =>
        cases h1
        exact hacc kv hkv
      | mapExit m =>
        cases h1
        exact hacc kv hkv

/-- Scope balance of the inlined state, assembled from the shape facts: the
final node list is the parent nodes (map-free) plus the kind-preserving copy
of the child nodes minus boundary access nodes, filtered only at handles at or
below the old maximum. -/
theorem balanced_assembled
    (pnodes : List (Nat × Node1)) (nstate : State0)
    (F : Nat × Node0 → Nat × Node0) (bnd : List Nat)
    (ofs nsdfgId M : Nat) (g2 : Nat → Bool)
    (anodes final : List (Nat × Node1))
    (hanodes : anodes = pnodes ++
      ((nstate.nodes.map F).filter (fun q => !bnd.contains q.1)).map
        (fun q => (q.1 + ofs, Node1.base q.2)))
    (hfinal : final = (anodes.filter (fun q => g2 q.1)).filter
      (fun q => decide (q.1 ≠ nsdfgId)))
    (hflatp : ∀ q ∈ pnodes, Node1.scopeK q.2 = ScopeK.notScope)
    (hF1 : ∀ q, (F q).1 = q.1)
    (hFent : ∀ q mid, (F q).2 = Node0.mapEntry mid ↔ q.2 = Node0.mapEntry mid)
    (hFex : ∀ q mid, (F q).2 = Node0.mapExit mid ↔ q.2 = Node0.mapExit mid)
    (hbnd : ∀ i ∈ bnd, ∃ d, alGet i nstate.nodes = some (Node0.access d))
    (hnd : (nstate.nodes.map (fun q => q.1)).Nodup)
    (hbal : State0.balanced nstate)
    (hg2 : ∀ n, M < n → g2 n = true)
    (hMofs : M < ofs) (hns : nsdfgId ≤ M) :
    ∀ mid, (∃ i, (i, Node1.base (Node0.mapEntry mid)) ∈ final) →
      final.countP (fun q => q.2 = Node1.base (Node0.mapExit mid)) = 1 := by
  subst hanodes
  subst hfinal
  intro mid hex
  obtain ⟨i, hm⟩ := hex
  have hmb := (List.mem_filter.mp ((List.mem_filter.mp hm).1)).1
  rcases List.mem_append.mp hmb with hL | hR
  · exfalso
    have hfa := hflatp _ hL
    simp [Node1.scopeK, Node0.scopeK] at hfa
  · rcases List.mem_map.mp hR with ⟨q0, hq0, heq⟩
    have hq02 : q0.2 = Node0.mapEntry mid := by
      have h2 := congrArg Prod.snd heq
      dsimp only at h2
      simpa using h2
    have hq0mem := (List.mem_filter.mp hq0).1
    rcases List.mem_map.mp hq0mem with ⟨q00, hq00, hFq⟩
    have hq002 : q00.2 = Node0.mapEntry mid := by
      refine (hFent q00 mid).mp ?_
      rw [hFq]
      exact hq02
    have hex0 : ∃ j, (j, Node0.mapEntry mid) ∈ nstate.nodes := by
      refine ⟨q00.1, ?_⟩
      have hpe : (q00.1, Node0.mapEntry mid) = q00 := by
        rw [← hq002]
      rw [hpe]
      exact hq00
    have hcnt := hbal mid hex0
    have hzero : pnodes.countP (fun a =>
        (decide (a.2 = Node1.base (Node0.mapExit mid)) && decide (a.1 ≠ nsdfgId)) &&
          g2 a.1) = 0 := by
      rw [List.countP_eq_zero]
      intro a ha hcontra
      simp only [Bool.and_eq_true, decide_eq_true_eq] at hcontra
      have hfa := hflatp a ha
      rw [hcontra.1.1] at hfa
      simp [Node1.scopeK, Node0.scopeK] at hfa
    have hone : (((nstate.nodes.map F).filter (fun q => !bnd.contains q.1)).map
        (fun q => (q.1 + ofs, Node1.base q.2))).countP (fun a =>
          (decide (a.2 = Node1.base (Node0.mapExit mid)) && decide (a.1 ≠ nsdfgId)) &&
            g2 a.1) = 1 := by
      rw [countP_map2]
      have hstep1 := countP_congr_mem
        ((nstate.nodes.map F).filter (fun q => !bnd.contains q.1))
        (fun a => (decide ((a.1 + ofs, Node1.base a.2).2 = Node1.base (Node0.mapExit mid)) &&
          decide ((a.1 + ofs, Node1.base a.2).1 ≠ nsdfgId)) && g2 (a.1 + ofs, Node1.base a.2).1)
        (fun q => decide (q.2 = Node0.mapExit mid))
        (by
          intro a ha
          dsimp only
          have h1 : decide (Node1.base a.2 = Node1.base (Node0.mapExit mid)) =
              decide (a.2 = Node0.mapExit mid) := decide_eq_decide.mpr (by simp)
          have h2 : decide (a.1 + ofs ≠ nsdfgId) = true := decide_eq_true (by omega)
          have h3 : g2 (a.1 + ofs) = true := hg2 _ (by omega)
          rw [h1, h2, h3, Bool.and_true, Bool.and_true])
      rw [hstep1]
      rw [countP_filter2]
      have hstep2 := countP_congr_mem (nstate.nodes.map F)
        (fun a => decide (a.2 = Node0.mapExit mid) && !bnd.contains a.1)
        (fun a => decide (a.2 = Node0.mapExit mid))
        (by
          intro a ha
          dsimp only
          by_cases hax : a.2 = Node0.mapExit mid
          · have hcontains : bnd.contains a.1 = false := by
              by_contra hcv
              have hcb : bnd.contains a.1 = true := by
                revert hcv
                cases hx : bnd.contains a.1 with
                | true => intro h2; rfl
                | false => intro h2; exact absurd rfl h2
              have hc2 : a.1 ∈ bnd := List.mem_of_elem_eq_true hcb
              obtain ⟨d, hd⟩ := hbnd a.1 hc2
              rcases List.mem_map.mp ha with ⟨a0, ha0, hFa⟩
              have ha02 : a0.2 = Node0.mapExit mid := by
                refine (hFex a0 mid).mp ?_
                rw [hFa]
                exact hax
              have ha01 : a0.1 = a.1 := by
                rw [← hFa]
                exact (hF1 a0).symm
              have hmem0 : (a.1, Node0.mapExit mid) ∈ nstate.nodes := by
                have hpe : (a.1, Node0.mapExit mid) = a0 := by
                  rw [← ha02, ← ha01]
                rw [hpe]
                exact ha0
              have := alGet_eq_of_mem_nodup a.1 (Node0.mapExit mid) nstate.nodes hnd hmem0
              rw [hd] at this
              cases this
            rw [hcontains, Bool.not_false, Bool.and_true]
          · have hdx : decide (a.2 = Node0.mapExit mid) = false := decide_eq_false hax
            rw [hdx, Bool.false_and])
      rw [hstep2]
      rw [countP_map2]
      have hstep3 := countP_congr_mem nstate.nodes
        (fun a => decide ((F a).2 = Node0.mapExit mid))
        (fun q => decide (q.2 = Node0.mapExit mid))
        (fun a _ => decide_eq_decide.mpr (hFex a mid))
      rw [hstep3]
      exact hcnt
    rw [countP_filter2, countP_filter2, List.countP_append]
    try dsimp only
    rw [hzero, hone]

theorem mapError_ok {ε ε2 α : Type} (x : Except ε α) (f : ε → ε2) (v : α)
    (h : x.mapError f = .ok v) : x = .ok v := by
  cases x with
  | error e => simp [Except.mapError] at h
  | ok a =>
    simp [Except.mapError] at h
    rw [h]

theorem entry_node_none_of_flat (st : State1)
    (hflat : ∀ q ∈ st.nodes, Node1.scopeK q.2 = ScopeK.notScope) (n : Nat) :
    st.entry_node n = none := by
  unfold State1.entry_node
  have hfind : st.edges.find? (fun e =>
      e.dst = n &&
        match alGet e.src st.nodes with
        | some (.base (.mapEntry _)) => true
        | _ => false) = none := by
    rw [List.find?_eq_none]
    intro e he
    cases hg : alGet e.src st.nodes with
    | none => simp [hg]
    | some v =>
      have hfl := hflat (e.src, v) (alGet_mem _ _ _ hg)
      cases v with
      | base b =>
        cases b <;> simp_all [Node1.scopeK, Node0.scopeK, hg]
      | nested ch i o => simp [hg]
  rw [hfind]
  rfl

theorem scopeConnect_none (e2 : Option Nat) (ofs : Nat) (c : List (Nat × Node0))
    (st : State1) : InlineSDFG.scopeConnect none e2 ofs c st = st := rfl

theorem inline_apply_balance (p : Parent) (nsdfgId : Nat) (child : SDFG0)
    (ins outs : List String) (nstate : State0) (p2 : Parent)
    (hget : alGet nsdfgId p.st.nodes = some (Node1.nested child ins outs))
    (hstates : child.states = [nstate])
    (hflat : ∀ q ∈ p.st.nodes, Node1.scopeK q.2 = ScopeK.notScope)
    (hwf : ∀ e ∈ p.st.edges, (alGet e.src p.st.nodes).isSome ∧
      (alGet e.dst p.st.nodes).isSome)
    (hnd : (nstate.nodes.map (fun q => q.1)).Nodup)
    (hbal : State0.balanced nstate)
    (hok : InlineSDFG.apply p nsdfgId = .ok p2) :
    State1.balanced p2.st := by
  unfold InlineSDFG.apply at hok
  rw [hget] at hok
  dsimp only at hok
  rw [hstates] at hok
  dsimp only at hok
  rcases except_bind_ok _ _ _ hok with ⟨⟨arrays2, transients⟩, hAT, hok⟩
  rcases except_bind_ok _ _ _ hok with ⟨newIncoming, hNI, hok⟩
  rcases except_bind_ok _ _ _ hok with ⟨newOutgoing, hNO, hok⟩
  rcases except_bind_ok _ _ _ hok with ⟨⟨stA, modifA⟩, hSp1, hok⟩
  rcases except_bind_ok _ _ _ hok with ⟨⟨stB, modifB⟩, hSp2, hok⟩
  rcases except_bind_ok _ _ _ hok with ⟨stC, hMI, hok⟩
  rcases except_bind_ok _ _ _ hok with ⟨stD, hRe1, hok⟩
  rcases except_bind_ok _ _ _ hok with ⟨stE, hRe2, hok⟩
  cases hok
  have hentry : p.st.entry_node nsdfgId = none := entry_node_none_of_flat p.st hflat nsdfgId
  rw [hentry] at hRe1 hRe2
  rw [scopeConnect_none] at hRe1 hRe2
  have hstA := splice_nodes _ _ _ _ _ _ _ _ (mapError_ok _ _ _ hSp1)
  have hstB := splice_nodes _ _ _ _ _ _ _ _ (mapError_ok _ _ _ hSp2)
  have hstC := modifyInternal_nodes _ _ _ _ _ _ _ _ _ (mapError_ok _ _ _ hMI)
  have hstD := readd_nodes _ _ _ _ _ _ _ (mapError_ok _ _ _ hRe1)
  have hstE := readd_nodes _ _ _ _ _ _ _ (mapError_ok _ _ _ hRe2)
  dsimp only at hstA
  have hns : nsdfgId ≤ maxNodeId p.st :=
    mem_le_maxNodeId p.st (nsdfgId, Node1.nested child ins outs) (alGet_mem _ _ _ hget)
  have hbase : ∀ q ∈ stA.nodes, q.1 ≤ maxNodeId p.st →
      Node1.scopeK q.2 = ScopeK.notScope := by
    intro q hq hle
    rw [hstA] at hq
    rcases List.mem_append.mp hq with h | h
    · exact hflat q h
    · exfalso
      rcases List.mem_map.mp h with ⟨q0, _, hq0⟩
      rw [← hq0] at hle
      dsimp only at hle
      omega
  have hem1 : ∀ kv ∈ (List.foldl (fun m e => alSet e.dstConn e m) []
      (inEdges p.st.edges nsdfgId)),
      kv.2.src ≤ maxNodeId p.st ∧ kv.2.dst ≤ maxNodeId p.st := by
    intro kv hkv
    rcases mem_foldl_alSet (fun e => e.dstConn) _ _ kv hkv with h | h
    · cases h
    · obtain ⟨e, he, hkv2⟩ := h
      subst hkv2
      dsimp only
      have hee : e ∈ p.st.edges := (List.mem_filter.mp he).1
      obtain ⟨h1, h2⟩ := hwf e hee
      obtain ⟨v1, hv1⟩ := Option.isSome_iff_exists.mp h1
      obtain ⟨v2, hv2⟩ := Option.isSome_iff_exists.mp h2
      exact ⟨mem_le_maxNodeId p.st (e.src, v1) (alGet_mem _ _ _ hv1),
        mem_le_maxNodeId p.st (e.dst, v2) (alGet_mem _ _ _ hv2)⟩
  have hem2 : ∀ kv ∈ (List.foldl (fun m e => alSet e.srcConn e m) []
      (outEdges p.st.edges nsdfgId)),
      kv.2.src ≤ maxNodeId p.st ∧ kv.2.dst ≤ maxNodeId p.st := by
    intro kv hkv
    rcases mem_foldl_alSet (fun e => e.srcConn) _ _ kv hkv with h | h
    · cases h
    · obtain ⟨e, he, hkv2⟩ := h
      subst hkv2
      dsimp only
      have hee : e ∈ p.st.edges := (List.mem_filter.mp he).1
      obtain ⟨h1, h2⟩ := hwf e hee
      obtain ⟨v1, hv1⟩ := Option.isSome_iff_exists.mp h1
      obtain ⟨v2, hv2⟩ := Option.isSome_iff_exists.mp h2
      exact ⟨mem_le_maxNodeId p.st (e.src, v1) (alGet_mem _ _ _ hv1),
        mem_le_maxNodeId p.st (e.dst, v2) (alGet_mem _ _ _ hv2)⟩
  have hst0 : stC.nodes = stA.nodes.filter (fun q => (fun _ : Nat => true) q.1) := by
    rw [hstC, hstB]
    symm
    simp
  obtain ⟨g1, hg1, hmo1⟩ := removeEdgePaths_nodes true (maxNodeId p.st) stA.nodes hbase
    (List.foldl (fun m e => alSet e.dstConn e m) [] (inEdges p.st.edges nsdfgId))
    stC (fun _ => true) hem1 hst0
  obtain ⟨g2, hg2, hmo2⟩ := removeEdgePaths_nodes false (maxNodeId p.st) stA.nodes hbase
    (List.foldl (fun m e => alSet e.srcConn e m) [] (outEdges p.st.edges nsdfgId))
    _ g1 hem2 hg1
  have hgtrue : ∀ n, maxNodeId p.st < n → g2 n = true := by
    intro n hn
    rw [hmo2 n hn, hmo1 n hn]
  have hbnd : ∀ i ∈ (newIncoming.map (fun kv => kv.1) ++
      newOutgoing.map (fun kv => kv.1)),
      ∃ d, alGet i nstate.nodes = some (Node0.access d) := by
    intro i hi
    rcases List.mem_append.mp hi with h | h
    · rcases List.mem_map.mp h with ⟨kv, hkv, rfl⟩
      exact collectBoundary_access nstate _ _ _ [] newIncoming
        (fun kv2 h2 => absurd h2 (List.not_mem_nil kv2)) (mapError_ok _ _ _ hNI) kv hkv
    · rcases List.mem_map.mp h with ⟨kv, hkv, rfl⟩
      exact collectBoundary_access nstate _ _ _ [] newOutgoing
        (fun kv2 h2 => absurd h2 (List.not_mem_nil kv2)) (mapError_ok _ _ _ hNO) kv hkv
  intro mid hex
  dsimp only at hex ⊢
  refine balanced_assembled p.st.nodes nstate _ _ (maxNodeId p.st + 1) nsdfgId
    (maxNodeId p.st) g2 stA.nodes _ hstA ?hfin hflat ?hF1 ?hFent ?hFex hbnd hnd hbal
    hgtrue (by omega) hns mid hex
  case hfin =>
    rw [hstE, hstD, hg2]
  case hF1 =>
    intro q
    dsimp only
    split
    · rfl
    · split
      · rfl
      · rfl
  case hFent =>
    intro q mid2
    dsimp only
    split
    · exact Iff.rfl
    · split
      · rename_i d hq2
        rw [hq2]
        simp
      · exact Iff.rfl
  case hFex =>
    intro q mid2
    dsimp only
    split
    · exact Iff.rfl
    · split
      · rename_i d hq2
        rw [hq2]
        simp
      · exact Iff.rfl

/-- C7 (counterexample): `NestSDFG.apply` completes on `c7sdfg`, yet a state of
the nested SDFG it builds keeps the unmatched map entry — completion of the
transformation alone does not give scope balance; only its preservation from
the input holds (see the amended theorem). -/
theorem C7_counterexample :
    ∃ r, NestSDFG.apply c7sdfg false = Except.ok r ∧
      ∃ st ∈ r.states, ∃ q ∈ st.nodes, ∃ ch ins outs,
        q.2 = Node1.nested ch ins outs ∧ ∃ cst ∈ ch.states, ¬ State0.balanced cst := by
  refine ⟨{ label := "p", arrays := [],
            states := [{ nodes := [(0, Node1.nested c7sdfg [] [])], edges := [] }] },
    by decide, ?_⟩
  refine ⟨_, List.mem_singleton.mpr rfl, _, List.mem_singleton.mpr rfl, _, _, _, rfl,
    _, List.mem_singleton.mpr rfl, ?_⟩
  intro hbal
  have h1 := hbal 0 ⟨0, by decide⟩
  revert h1
  decide

/-- C7: scope balance is an invariant the transformations preserve.  Outline
(`NestSDFG.apply`, any promotion setting) yields a map-free parent state and
child states whose nodes correspond one-to-one in handle and scope kind to the
input states; Inline (`InlineSDFG.apply`) on a map-free parent state with
well-formed edge endpoints and a single balanced child state yields a balanced
state. -/
theorem C7_scope_balance :
    (∀ (sdfg : SDFG0) (promote : Bool) (r : SDFG1),
      (∀ st ∈ sdfg.states, State0.balanced st) →
      NestSDFG.apply sdfg promote = .ok r →
      (∀ st ∈ r.states, State1.balanced st) ∧
        (∀ st ∈ r.states, ∀ q ∈ st.nodes, ∀ ch ins outs,
          q.2 = Node1.nested ch ins outs → ∀ cst ∈ ch.states, State0.balanced cst)) ∧
    (∀ (p : Parent) (nsdfgId : Nat) (child : SDFG0) (ins outs : List String)
        (nstate : State0) (p2 : Parent),
      alGet nsdfgId p.st.nodes = some (Node1.nested child ins outs) →
      child.states = [nstate] →
      (∀ q ∈ p.st.nodes, Node1.scopeK q.2 = ScopeK.notScope) →
      (∀ e ∈ p.st.edges, (alGet e.src p.st.nodes).isSome ∧
        (alGet e.dst p.st.nodes).isSome) →
      (nstate.nodes.map (fun q => q.1)).Nodup →
      State0.balanced nstate →
      InlineSDFG.apply p nsdfgId = .ok p2 →
      State1.balanced p2.st) :=
  ⟨fun sdfg promote r hbal h => nest_apply_balance sdfg promote r hbal h,
   fun p n ch i o ns p2 h1 h2 h3 h4 h5 h6 h7 =>
     inline_apply_balance p n ch i o ns p2 h1 h2 h3 h4 h5 h6 h7⟩

theorem C7_scope_balance_witness :
    ((∀ st ∈ C6wR.states, State1.balanced st) ∧
      (∀ st ∈ C6wR.states, ∀ q ∈ st.nodes, ∀ ch ins outs,
        q.2 = Node1.nested ch ins outs → ∀ cst ∈ ch.states, State0.balanced cst)) ∧
    State1.balanced c7r.st := by
  constructor
  · refine C7_scope_balance.1 C6wSDFG false C6wR ?_ rfl
    intro st hst mid hex
    exfalso
    obtain ⟨i, hm⟩ := hex
    rcases List.mem_cons.mp hst with h | h
    · subst h
      simp [C6wSDFG] at hm
    · rcases List.mem_cons.mp h with h | h
      · subst h
        simp [C6wSDFG] at hm
      · cases h
  · refine C7_scope_balance.2 c4parent 2 c4child ["in0"] ["out0"] c4childState c7r
      (by decide) rfl (by decide) (by decide) (by decide) ?_ (by decide)
    intro mid hex
    exfalso
    obtain ⟨i, hm⟩ := hex
    simp [c4childState] at hm

end DaceNesting
